import Mathlib

/-!
# The olareg module: image references and registry requests

A verification development for `modules/olareg` (`registry.go`, `options.go`).

The reference grammar of `registry.go` is a regular expression compiled with Go's
`regexp` package.  It is embedded here as a syntax tree (`Regex`) together with a
backtracking interpreter (`run`) that lists the outcomes of a match attempt in the
order a backtracking search finds them; Go's `regexp` returns the leftmost match and,
among those, the one a backtracking search finds first.
-/

namespace Olareg

/-! ## Regular expressions -/

/-- Syntax of the regular expressions used by `registry.go`.  A character class is a list
of inclusive ranges; `alt a b` prefers `a`; `star` is the greedy `*`; `cap i a` is the
`i`-th capturing group; `bol` and `eol` are `^` and `$` without the multi-line flag. -/
inductive Regex where
  | empty : Regex
  | bol : Regex
  | eol : Regex
  | cls : List (Char × Char) → Regex
  | seq : Regex → Regex → Regex
  | alt : Regex → Regex → Regex
  | star : Regex → Regex
  | cap : Nat → Regex → Regex

namespace Regex

/-- The greedy `a?`. -/
def opt (a : Regex) : Regex := alt a empty

/-- The greedy `a+`. -/
def plus (a : Regex) : Regex := seq a (star a)

/-- A literal character. -/
def chr (c : Char) : Regex := cls [(c, c)]

/-- A literal string. -/
def str : List Char → Regex
  | [] => empty
  | c :: cs => seq (chr c) (str cs)

/-- The greedy bounded repetition `a{0,n}`. -/
def upto : Nat → Regex → Regex
  | 0, _ => empty
  | n + 1, a => opt (seq a (upto n a))

/-- The exact repetition `a{n}`. -/
def times : Nat → Regex → Regex
  | 0, _ => empty
  | n + 1, a => seq a (times n a)

/-- The greedy `a{n,}`. -/
def atLeast (n : Nat) (a : Regex) : Regex := seq (times n a) (star a)

/-- Number of capturing groups, as the largest group index (`Regexp.NumSubexp`). -/
def numSubexp : Regex → Nat
  | empty => 0
  | bol => 0
  | eol => 0
  | cls _ => 0
  | seq a b => max (numSubexp a) (numSubexp b)
  | alt a b => max (numSubexp a) (numSubexp b)
  | star a => numSubexp a
  | cap i a => max i (numSubexp a)

end Regex

/-- Membership of a character in a class given by inclusive ranges. -/
def inClass (rs : List (Char × Char)) (c : Char) : Bool :=
  rs.any (fun r => decide (r.1 ≤ c) && decide (c ≤ r.2))

/-- State of a match attempt: the input not yet consumed and the text of the capturing
groups closed so far, the most recently closed first. -/
structure St where
  rest : List Char
  caps : List (Nat × List Char)
  deriving DecidableEq

/-- Text of group `i`: the text recorded last, `none` when the group took no part. -/
def getCap : List (Nat × List Char) → Nat → Option (List Char)
  | [], _ => none
  | (j, w) :: cs, i => if j = i then some w else getCap cs i

/-- Greedy iteration of a matcher `f`: outcomes with one more iteration come before the
outcome that stops here.  An iteration that consumes nothing is not repeated; the
first argument bounds the number of iterations and `run` passes the length of the
remaining input, which no sequence of consuming iterations can exceed.  No starred
pattern of `registry.go` matches the empty string. -/
def starRun (f : St → List St) : Nat → St → List St
  | 0, st => [st]
  | k + 1, st =>
    ((f st).filter (fun st' => decide (st'.rest.length < st.rest.length))).flatMap (starRun f k)
      ++ [st]

/-- All outcomes of matching `re` at state `st`, in backtracking order (the first element
is the outcome a backtracking search reaches first).  `n` is the length of the whole
input, used by `^`. -/
def run (n : Nat) : Regex → St → List St
  | .empty, st => [st]
  | .bol, st => if st.rest.length = n then [st] else []
  | .eol, st => if st.rest.length = 0 then [st] else []
  | .cls rs, st =>
    match st.rest with
    | [] => []
    | c :: cs => if inClass rs c then [{ st with rest := cs }] else []
  | .seq a b, st => (run n a st).flatMap (fun st' => run n b st')
  | .alt a b, st => run n a st ++ run n b st
  | .star a, st => starRun (fun st' => run n a st') st.rest.length st
  | .cap i a, st =>
    (run n a st).map (fun st' =>
      { st' with caps := (i, st.rest.take (st.rest.length - st'.rest.length)) :: st'.caps })

/-- Leftmost search: the first start offset at which `re` matches, with the input from
that offset on and the preferred outcome there. -/
def search (re : Regex) (n : Nat) : List Char → Option (List Char × St)
  | [] => ((run n re ⟨[], []⟩).head?).map (fun st => ([], st))
  | c :: cs =>
    match (run n re ⟨c :: cs, []⟩).head? with
    | some st => some (c :: cs, st)
    | none => search re n cs

/-- The method `Regexp.FindStringSubmatch`: the empty slice when there is no match,
otherwise the text of the leftmost match followed by the text of each capturing group,
the empty string for a group that took no part in the match. -/
def FindStringSubmatch (re : Regex) (s : String) : List String :=
  match search re s.data.length s.data with
  | none => []
  | some (inp, st) =>
    String.mk (inp.take (inp.length - st.rest.length)) ::
      (List.range re.numSubexp).map (fun i => String.mk ((getCap st.caps (i + 1)).getD []))

/-! ## The reference grammar of `registry.go` -/

open Regex in
/-- The class `[a-zA-Z0-9]`. -/
def alnum : Regex := cls [('a', 'z'), ('A', 'Z'), ('0', '9')]

open Regex in
/-- The class `[a-zA-Z0-9-]`. -/
def alnumHyphen : Regex := cls [('a', 'z'), ('A', 'Z'), ('0', '9'), ('-', '-')]

open Regex in
/-- The class `[0-9]`. -/
def digit : Regex := cls [('0', '9')]

open Regex in
/-- The class `[a-z0-9]`. -/
def lowerDigit : Regex := cls [('a', 'z'), ('0', '9')]

open Regex in
/-- The pattern `hostPartS`: `(?:[a-zA-Z0-9](?:[a-zA-Z0-9-]*[a-zA-Z0-9])?)`. -/
def hostPartS : Regex := seq alnum (opt (seq (star alnumHyphen) alnum))

open Regex in
/-- The pattern `hostPortS`: `(?:hostPartS(?:\.hostPartS)*\.?:[0-9]+)`. -/
def hostPortS : Regex :=
  seq hostPartS (seq (star (seq (chr '.') hostPartS)) (seq (opt (chr '.'))
    (seq (chr ':') (plus digit))))

open Regex in
/-- The pattern `hostDomainS`: `(?:hostPartS(?:(?:\.hostPartS)+\.?|\.))`. -/
def hostDomainS : Regex :=
  seq hostPartS (alt (seq (plus (seq (chr '.') hostPartS)) (opt (chr '.'))) (chr '.'))

open Regex in
/-- The pattern `hostUpperS`:
`(?:[a-zA-Z0-9]*[A-Z][a-zA-Z0-9-]*[a-zA-Z0-9]|[a-zA-Z0-9][a-zA-Z0-9-]*[A-Z][a-zA-Z0-9]*)`. -/
def hostUpperS : Regex :=
  alt (seq (star alnum) (seq (cls [('A', 'Z')]) (seq (star alnumHyphen) alnum)))
    (seq alnum (seq (star alnumHyphen) (seq (cls [('A', 'Z')]) (star alnum))))

open Regex in
/-- The pattern `registryS`:
`(?:hostDomainS|hostPortS|hostUpperS|localhost(?::[0-9]+)?)`. -/
def registryS : Regex :=
  alt hostDomainS (alt hostPortS (alt hostUpperS
    (seq (str "localhost".data) (opt (seq (chr ':') (plus digit))))))

open Regex in
/-- The pattern `repoPartS`: `[a-z0-9]+(?:(?:\.|_|__|-+)[a-z0-9]+)*`. -/
def repoPartS : Regex :=
  seq (plus lowerDigit)
    (star (seq (alt (chr '.') (alt (chr '_') (alt (seq (chr '_') (chr '_')) (plus (chr '-')))))
      (plus lowerDigit)))

open Regex in
/-- The pattern `tagS`: `[a-zA-Z0-9_][a-zA-Z0-9._-]{0,127}`. -/
def tagS : Regex :=
  seq (cls [('a', 'z'), ('A', 'Z'), ('0', '9'), ('_', '_')])
    (upto 127 (cls [('a', 'z'), ('A', 'Z'), ('0', '9'), ('.', '.'), ('_', '_'), ('-', '-')]))

open Regex in
/-- The pattern `digestS`:
`[A-Za-z][A-Za-z0-9]*(?:[-_+.][A-Za-z][A-Za-z0-9]*)*[:][[:xdigit:]]{32,}`. -/
def digestS : Regex :=
  seq (cls [('A', 'Z'), ('a', 'z')]) (seq (star (cls [('A', 'Z'), ('a', 'z'), ('0', '9')]))
    (seq (star (seq (cls [('-', '-'), ('_', '_'), ('+', '+'), ('.', '.')])
      (seq (cls [('A', 'Z'), ('a', 'z')]) (star (cls [('A', 'Z'), ('a', 'z'), ('0', '9')])))))
    (seq (cls [(':', ':')])
      (atLeast 32 (cls [('0', '9'), ('A', 'F'), ('a', 'f')])))))

open Regex in
/-- The path of a repository, the second group of `refRE`: `repoPartS(?:/repoPartS)*`. -/
def repoS : Regex := seq repoPartS (star (seq (chr '/') repoPartS))

open Regex in
/-- The pattern `refRE`:
`^(?:(registryS)/)?(repoPartS(?:/repoPartS)*)(?::(tagS))?(?:@(digestS))?$`. -/
def refRE : Regex :=
  seq bol (seq (opt (seq (cap 1 registryS) (chr '/')))
    (seq (cap 2 repoS)
      (seq (opt (seq (chr ':') (cap 3 tagS)))
        (seq (opt (seq (chr '@') (cap 4 digestS))) eol))))

/-! ## `imageSplit` -/

/-- The function `imageSplit`: registry, repository, tag, digest and the error (`none` for
`nil`). -/
def imageSplit (imageRef : String) : String × String × String × String × Option String :=
  let m := FindStringSubmatch refRE imageRef
  if m.length < 5 then
    ("", "", "", "", some ("failed to parse ref " ++ imageRef))
  else
    (m.getD 1 "", m.getD 2 "", m.getD 3 "", m.getD 4 "", none)

/-! ## The language of a pattern -/

/-- The words a pattern matches in full, ignoring groups; the anchors match the empty
word. -/
def Lang : Regex → List Char → Prop
  | .empty, w => w = []
  | .bol, w => w = []
  | .eol, w => w = []
  | .cls rs, w => ∃ c, w = [c] ∧ inClass rs c = true
  | .seq a b, w => ∃ u v, w = u ++ v ∧ Lang a u ∧ Lang b v
  | .alt a b, w => Lang a w ∨ Lang b w
  | .star a, w => ∃ ws : List (List Char), w = ws.flatten ∧ ∀ u ∈ ws, Lang a u
  | .cap _ a, w => Lang a w

/-- A pattern without groups and anchors. -/
def Regex.plain : Regex → Bool
  | .empty => true
  | .bol => false
  | .eol => false
  | .cls _ => true
  | .seq a b => a.plain && b.plain
  | .alt a b => a.plain && b.plain
  | .star a => a.plain
  | .cap _ _ => false

/-- Decision procedure for full matches of a plain pattern: some outcome of the
interpreter consumes the whole word. -/
def fullMatch (re : Regex) (w : List Char) : Bool :=
  (run w.length re ⟨w, []⟩).any (fun st => st.rest.isEmpty)

/-! ## Decompositions of a reference -/

/-- A decomposition of a reference into its four parts; `none` for a part that is absent. -/
structure Parse where
  registry : Option (List Char)
  repository : List Char
  tag : Option (List Char)
  digest : Option (List Char)

/-- An optional part preceded by its separator. -/
def withSep (c : Char) : Option (List Char) → List Char
  | none => []
  | some w => c :: w

/-- An optional registry followed by its `/`. -/
def regPart : Option (List Char) → List Char
  | none => []
  | some g => g ++ ['/']

/-- The text of a decomposition after the registry: `repository[:tag][@digest]`. -/
def Parse.tail (p : Parse) : List Char :=
  p.repository ++ (withSep ':' p.tag ++ withSep '@' p.digest)

/-- The text of a decomposition: `[registry/]repository[:tag][@digest]`. -/
def Parse.render (p : Parse) : List Char := regPart p.registry ++ p.tail

/-- The group recorded for an optional part. -/
def capOf (i : Nat) : Option (List Char) → List (Nat × List Char)
  | none => []
  | some w => [(i, w)]

/-- The groups recorded by a match that reads the reference as `p`. -/
def Parse.caps (p : Parse) : List (Nat × List Char) :=
  capOf 4 p.digest ++ (capOf 3 p.tag ++ ((2, p.repository) :: capOf 1 p.registry))

/-- An optional part, when present, is a word of the pattern. -/
def OptLang (re : Regex) : Option (List Char) → Prop
  | none => True
  | some w => Lang re w

/-- Each part of the decomposition is a word of its pattern. -/
def Parse.Valid (p : Parse) : Prop :=
  OptLang registryS p.registry ∧ Lang repoS p.repository ∧ OptLang tagS p.tag ∧
    OptLang digestS p.digest

/-- The anchored reference grammar `(registry/)? repository (:tag)? (@digest)?`. -/
def RefGrammar (s : List Char) : Prop := ∃ p : Parse, p.Valid ∧ p.render = s

/-- The part of `refRE` after the tag: `(?:@(digestS))?$`. -/
def afterTag : Regex :=
  Regex.seq (Regex.opt (Regex.seq (Regex.chr '@') (Regex.cap 4 digestS))) Regex.eol

/-- The part of `refRE` after the repository: `(?::(tagS))?(?:@(digestS))?$`. -/
def afterRepo : Regex :=
  Regex.seq (Regex.opt (Regex.seq (Regex.chr ':') (Regex.cap 3 tagS))) afterTag

/-- The part of `refRE` after the registry. -/
def afterRegistry : Regex := Regex.seq (Regex.cap 2 repoS) afterRepo

/-- The outcomes of `refRE` on the input `s`, in the order of preference. -/
def outcomes (s : List Char) : List St := run s.length refRE ⟨s, []⟩

/-- The outcomes that take the registry group. -/
def withRegistry (s : List Char) : List St :=
  (run s.length (Regex.seq (Regex.cap 1 registryS) (Regex.chr '/')) ⟨s, []⟩).flatMap
    (fun st => run s.length afterRegistry st)

/-- The outcomes that skip the registry group. -/
def withoutRegistry (s : List Char) : List St := run s.length afterRegistry ⟨s, []⟩

/-! ## Characters of the parts of a reference -/

/-- The ranges of all character classes of a pattern. -/
def Regex.alphabet : Regex → List (Char × Char)
  | .empty => []
  | .bol => []
  | .eol => []
  | .cls rs => rs
  | .seq a b => a.alphabet ++ b.alphabet
  | .alt a b => a.alphabet ++ b.alphabet
  | .star a => a.alphabet
  | .cap _ a => a.alphabet

/-- The class `[a-zA-Z0-9.:-]` that holds every character of a registry. -/
def registryChars : List (Char × Char) :=
  [('a', 'z'), ('A', 'Z'), ('0', '9'), ('.', '.'), (':', ':'), ('-', '-')]

/-- The class `[-a-z0-9._/]` that holds every character of a repository. -/
def repoChars : List (Char × Char) :=
  [('a', 'z'), ('0', '9'), ('.', '.'), ('_', '_'), ('/', '/'), ('-', '-')]

/-- The class `[a-zA-Z0-9._-]` that holds every character of a tag. -/
def tagChars : List (Char × Char) :=
  [('a', 'z'), ('A', 'Z'), ('0', '9'), ('.', '.'), ('_', '_'), ('-', '-')]

/-- Every range of `xs` lies inside a range of `ks`. -/
def subClass (xs ks : List (Char × Char)) : Bool :=
  xs.all (fun r => ks.any (fun k => decide (k.1 ≤ r.1) && decide (r.2 ≤ k.2)))

/-! ## From the outcomes to `imageSplit` -/

/-- The text of group `i` in an outcome, empty when the group took no part. -/
def group (st : St) (i : Nat) : String := String.mk ((getCap st.caps i).getD [])

/-- An optional part as the string `imageSplit` returns. -/
def optStr (o : Option (List Char)) : String := String.mk (o.getD [])

/-- The value `imageSplit` returns for a reference read as `p`. -/
def Parse.result (p : Parse) : String × String × String × String × Option String :=
  (optStr p.registry, String.mk p.repository, optStr p.tag, optStr p.digest, none)

/-! ## First and last characters -/

/-- The pattern matches the empty word. -/
def Regex.nullable : Regex → Bool
  | .empty => true
  | .bol => true
  | .eol => true
  | .cls _ => false
  | .seq a b => a.nullable && b.nullable
  | .alt a b => a.nullable || b.nullable
  | .star _ => true
  | .cap _ a => a.nullable

/-- Ranges that hold the first character of every non-empty word of the pattern. -/
def Regex.firstSet : Regex → List (Char × Char)
  | .empty => []
  | .bol => []
  | .eol => []
  | .cls rs => rs
  | .seq a b => a.firstSet ++ (if a.nullable then b.firstSet else [])
  | .alt a b => a.firstSet ++ b.firstSet
  | .star a => a.firstSet
  | .cap _ a => a.firstSet

/-- Ranges that hold the last character of every non-empty word of the pattern. -/
def Regex.lastSet : Regex → List (Char × Char)
  | .empty => []
  | .bol => []
  | .eol => []
  | .cls rs => rs
  | .seq a b => b.lastSet ++ (if b.nullable then a.lastSet else [])
  | .alt a b => a.lastSet ++ b.lastSet
  | .star a => a.lastSet
  | .cap _ a => a.lastSet

/-! ## The registry client -/

/-- Response headers (`http.Header`): the values recorded under each canonical key. -/
structure Header where
  entries : List (String × List String)

/-- The method `Header.Get`: the first value recorded under the key, the empty string when
there is none. -/
def Header.Get (h : Header) (key : String) : String :=
  match h.entries.lookup key with
  | some (v :: _) => v
  | _ => ""

/-- Status code and headers of an HTTP response. -/
structure Response where
  StatusCode : Int
  Header : Header

/-- The constant `http.MethodGet`. -/
def MethodGet : String := "GET"

/-- The constant `http.MethodHead`. -/
def MethodHead : String := "HEAD"

/-- The constant `http.MethodDelete`. -/
def MethodDelete : String := "DELETE"

/-- The constant `http.StatusOK`. -/
def StatusOK : Int := 200

/-- The constant `http.StatusAccepted`. -/
def StatusAccepted : Int := 202

/-- Modelled from the spec: the polling HTTP request of package `wait`, which is not part
of the module: an endpoint path, a method, whether `localhost` is forced to the IPv4
loopback address, and the expectations on the status code and on the response headers. -/
structure HTTPStrategy where
  Path : String
  Method : String
  ForceIPv4LocalHost : Bool
  StatusCodeMatcher : Int → Bool
  ResponseHeadersMatcher : Header → Bool

/-- Modelled from the spec: `wait.ForHTTP`, a request for the path that, like the liveness
probe `GET /v2/`, uses method GET, expects status 200 and accepts any headers until the
caller says otherwise. -/
def ForHTTP (path : String) : HTTPStrategy :=
  { Path := path
    Method := MethodGet
    ForceIPv4LocalHost := false
    StatusCodeMatcher := fun statusCode => statusCode == StatusOK
    ResponseHeadersMatcher := fun _ => true }

/-- Modelled from the spec: `WithMethod` sets the method of the request. -/
def HTTPStrategy.WithMethod (ws : HTTPStrategy) (method : String) : HTTPStrategy :=
  { ws with Method := method }

/-- Modelled from the spec: `WithForcedIPv4LocalHost` forces `localhost` to the IPv4
loopback address. -/
def HTTPStrategy.WithForcedIPv4LocalHost (ws : HTTPStrategy) : HTTPStrategy :=
  { ws with ForceIPv4LocalHost := true }

/-- Modelled from the spec: `WithStatusCodeMatcher` sets the expectation on the status. -/
def HTTPStrategy.WithStatusCodeMatcher (ws : HTTPStrategy) (m : Int → Bool) : HTTPStrategy :=
  { ws with StatusCodeMatcher := m }

/-- Modelled from the spec: `WithResponseHeadersMatcher` sets the expectation on the
headers. -/
def HTTPStrategy.WithResponseHeadersMatcher (ws : HTTPStrategy) (m : Header → Bool) :
    HTTPStrategy :=
  { ws with ResponseHeadersMatcher := m }

/-- Modelled from the spec: the success predicate of a polling request, which holds for a
response when the expectation on the status and the expectation on the headers both
hold. -/
def HTTPStrategy.succeeds (ws : HTTPStrategy) (resp : Response) : Bool :=
  ws.StatusCodeMatcher resp.StatusCode && ws.ResponseHeadersMatcher resp.Header

/-- What a client operation did: the error it returned (`none` for `nil`) and the polling
requests it issued, in order. -/
structure Call where
  err : Option String
  polls : List HTTPStrategy

/-- The method `RegistryContainer.DeleteImage`.  The argument `waitUntilReady` stands for
`WaitUntilReady(ctx, c)`: the error with which polling the container `c` ends. -/
def DeleteImage (waitUntilReady : HTTPStrategy → Option String) (imageRef : String) : Call :=
  match imageSplit imageRef with
  | (_, repo, tag, digest, err) =>
    if err ≠ none then
      ⟨err, []⟩
    else
      let tag := if tag = "" ∧ digest = "" then "latest" else tag
      let deleteEndpoint := "/v2/" ++ repo ++ "/manifests/" ++ tag
      let deleteEndpoint :=
        if digest ≠ "" then "/v2/" ++ repo ++ "/manifests/" ++ digest else deleteEndpoint
      let ws := ((ForHTTP deleteEndpoint).WithMethod MethodDelete).WithStatusCodeMatcher
        (fun statusCode => statusCode == StatusAccepted)
      ⟨waitUntilReady ws, [ws]⟩

/-- The method `RegistryContainer.ImageExists`, with `waitUntilReady` as in `DeleteImage`. -/
def ImageExists (waitUntilReady : HTTPStrategy → Option String) (imageRef : String) : Call :=
  match imageSplit imageRef with
  | (_, repo, tag, digest, err) =>
    if err ≠ none then
      ⟨err, []⟩
    else
      let tag := if tag = "" ∧ digest = "" then "latest" else tag
      let endpoint := "/v2/" ++ repo ++ "/manifests/" ++ tag
      let endpoint :=
        if digest ≠ "" then "/v2/" ++ repo ++ "/manifests/" ++ digest else endpoint
      let ws := ((((ForHTTP endpoint).WithMethod MethodHead).WithForcedIPv4LocalHost
        ).WithStatusCodeMatcher (fun statusCode => statusCode == StatusOK)
        ).WithResponseHeadersMatcher (fun headers => headers.Get "Docker-Content-Digest" != "")
      ⟨waitUntilReady ws, [ws]⟩

/-- The method `RegistryContainer.PushImage`: the body is commented out down to the final
`return fmt.Errorf("not implemented")`. -/
def PushImage (_waitUntilReady : HTTPStrategy → Option String) (_ref : String) : Call :=
  ⟨some "not implemented", []⟩

/-! ## Grammars named by the properties -/

/-- Host names made of labels separated by dots: `hostPartS(?:\.hostPartS)*`. -/
def hostNameS : Regex := Regex.seq hostPartS (Regex.star (Regex.seq (Regex.chr '.') hostPartS))

/-- Decimal ports: `[0-9]+`. -/
def portS : Regex := Regex.plus digit

/-- The class `[[:xdigit:]]` of hexadecimal digits. -/
def xdigitChars : List (Char × Char) := [('0', '9'), ('A', 'F'), ('a', 'f')]

/-! ## Putting a reference together -/

/-- The text `[registry/]repository[:tag][@digest]` put together from the four strings
`imageSplit` returns, a part and its separator left out when the string is empty. -/
def joinRef (g r t d : String) : String :=
  (if g ≠ "" then g ++ "/" else "") ++ r ++ (if t ≠ "" then ":" ++ t else "") ++
    (if d ≠ "" then "@" ++ d else "")


/-! ## Characters every word of a pattern has -/

/-- Every word of the pattern has a character of the class `ks`: a sufficient check on the
syntax. -/
def Regex.mustContain (ks : List (Char × Char)) : Regex → Bool
  | .empty => false
  | .bol => false
  | .eol => false
  | .cls rs => subClass rs ks
  | .seq a b => a.mustContain ks || b.mustContain ks
  | .alt a b => a.mustContain ks && b.mustContain ks
  | .star _ => false
  | .cap _ a => a.mustContain ks

/-- The first segment of a path: the text before the first `/`. -/
def firstSegment (w : List Char) : List Char := w.takeWhile (fun c => c != '/')


/-! ## The container and its request -/

/-- The constant `olaregImage`. -/
def olaregImage : String := "ghcr.io/olareg/olareg:latest"

/-- The constant `olaregPort`. -/
def olaregPort : String := "5000/tcp"

/-- The constant `containerRegistryPath` of `options.go`. -/
def containerRegistryPath : String := "/home/appuser/registry"

/-- A mapped port (`nat.Port`); the field is the port number that its method `Port()`
returns. -/
structure NatPort where
  Port : String

/-- Modelled from the spec: the handle of a running container, owned by the collaborator
that manages containers: the lookup of the port mapped to an internal port and the lookup
of the host, each with its value and its error (`none` for `nil`). -/
structure Container where
  MappedPort : String → NatPort × Option String
  Host : String × Option String

/-- The type `RegistryContainer`: the embedded container and the registry name. -/
structure RegistryContainer where
  Container : Container
  RegistryName : String

/-- A lookup made on the container. -/
inductive Lookup where
  | MappedPort : String → Lookup
  | Host : Lookup
  deriving DecidableEq

/-- What `Address` did: the address and the error it returned and the lookups it made, in
order. -/
structure AddressCall where
  url : String
  err : Option String
  lookups : List Lookup

/-- The method `RegistryContainer.Address`. -/
def Address (c : RegistryContainer) : AddressCall :=
  match c.Container.MappedPort "5000" with
  | (port, err) =>
    if err ≠ none then
      ⟨"", err, [Lookup.MappedPort "5000"]⟩
    else
      match c.Container.Host with
      | (ipAddress, err) =>
        if err ≠ none then
          ⟨"", err, [Lookup.MappedPort "5000", Lookup.Host]⟩
        else
          ⟨"http://" ++ ipAddress ++ ":" ++ port.Port, none,
            [Lookup.MappedPort "5000", Lookup.Host]⟩

/-- The function `strings.TrimPrefix`: `s` without the leading `pre` when it starts with
it, `s` otherwise. -/
def TrimPrefix (s pre : String) : String :=
  if pre.data.isPrefixOf s.data then String.mk (s.data.drop pre.data.length) else s

/-- The type `testcontainers.ContainerFile`, with the two fields the module sets. -/
structure ContainerFile where
  HostFilePath : String
  ContainerFilePath : String
  deriving DecidableEq

/-- Modelled from the spec: the wait strategies `RunContainer` asks for. -/
inductive WaitStrategy where
  | ForExposedPort : WaitStrategy
  | ForHTTP : HTTPStrategy → WaitStrategy
  | ForAll : List WaitStrategy → WaitStrategy

/-- The type `testcontainers.ContainerRequest`: the fields the module sets, and `Other` for
all the remaining fields, of a type left open. -/
structure ContainerRequest (ρ : Type) where
  Image : String
  ExposedPorts : List String
  Cmd : List String
  Files : List ContainerFile
  WaitingFor : WaitStrategy
  Other : ρ

/-- The type `testcontainers.GenericContainerRequest`, which embeds the container
request. -/
structure GenericContainerRequest (ρ : Type) extends ContainerRequest ρ where
  Started : Bool

/-- The type `testcontainers.CustomizeRequestOption`: the request as the option leaves it
and the error the option returns (`none` for `nil`). -/
def CustomizeRequestOption (ρ : Type) : Type :=
  GenericContainerRequest ρ → GenericContainerRequest ρ × Option String

/-- The function `WithData` of `options.go`. -/
def WithData {ρ : Type} (dataPath : String) : CustomizeRequestOption ρ :=
  fun req =>
    ({ req with
        Files := req.Files ++
          [{ HostFilePath := dataPath, ContainerFilePath := containerRegistryPath }] },
      none)

/-- The request `RunContainer` builds before it applies the options; `zero` is the zero
value of the fields that it does not set. -/
def registryRequest {ρ : Type} (zero : ρ) : GenericContainerRequest ρ :=
  { Image := olaregImage
    ExposedPorts := [olaregPort]
    Cmd := ["serve", "--store-type", "mem", "--api-delete", "--dir", containerRegistryPath]
    Files := []
    WaitingFor := WaitStrategy.ForAll [WaitStrategy.ForExposedPort,
      WaitStrategy.ForHTTP (ForHTTP "/v2/")]
    Other := zero
    Started := true }

/-- The loop of `RunContainer` over the options: each option customizes the request, and
the first error stops the loop. -/
def applyOpts {ρ : Type} :
    List (CustomizeRequestOption ρ) → GenericContainerRequest ρ →
      GenericContainerRequest ρ × Option String
  | [], req => (req, none)
  | opt :: opts, req =>
    match opt req with
    | (req', err) => if err ≠ none then (req', err) else applyOpts opts req'

/-- The function `RunContainer`: the container it returns (`none` for `nil`) and the error.
The argument `GenericContainer` stands for `testcontainers.GenericContainer`, which
starts a container for the request or fails. -/
def RunContainer {ρ : Type} (GenericContainer : GenericContainerRequest ρ → Except String Container)
    (zero : ρ) (opts : List (CustomizeRequestOption ρ)) :
    Option RegistryContainer × Option String :=
  match applyOpts opts (registryRequest zero) with
  | (genericContainerReq, err) =>
    if err ≠ none then
      (none, err)
    else
      match GenericContainer genericContainerReq with
      | Except.error e => (none, some e)
      | Except.ok container =>
        let c : RegistryContainer := { Container := container, RegistryName := "" }
        match Address c with
        | ⟨address, err, _⟩ =>
          if err ≠ none then
            (some c, err)
          else
            (some { c with RegistryName := TrimPrefix address "http://" }, none)


/-! # Theorems -/

/-! ## The language of a pattern -/

theorem St.ext_iff2 (a b : St) : a = b ↔ a.rest = b.rest ∧ a.caps = b.caps := by
  cases a; cases b; simp

theorem starRun_self (f : St → List St) (k : Nat) (st : St) : st ∈ starRun f k st := by
  cases k <;> simp [starRun]

theorem mem_starRun_sound (f : St → List St) (L : List Char → Prop)
    (hf : ∀ st st', st' ∈ f st → st'.caps = st.caps ∧ ∃ w, st.rest = w ++ st'.rest ∧ L w) :
    ∀ (k : Nat) (st st' : St), st' ∈ starRun f k st →
      st'.caps = st.caps ∧
        ∃ ws : List (List Char), st.rest = ws.flatten ++ st'.rest ∧ ∀ u ∈ ws, L u := by
  intro k
  induction k with
  | zero =>
    intro st st' h
    simp [starRun] at h
    subst h
    exact ⟨rfl, [], by simp, by simp⟩
  | succ k ih =>
    intro st st' h
    simp only [starRun, List.mem_append, List.mem_flatMap, List.mem_filter,
      List.mem_singleton] at h
    rcases h with ⟨st1, ⟨h1, _⟩, h2⟩ | h
    · obtain ⟨hc1, w, hw, hL⟩ := hf st st1 h1
      obtain ⟨hc2, ws, hws, hLs⟩ := ih st1 st' h2
      refine ⟨hc2.trans hc1, w :: ws, ?_, ?_⟩
      · rw [hw, hws]; simp
      · intro u hu
        rcases List.mem_cons.1 hu with rfl | hu
        · exact hL
        · exact hLs u hu
    · subst h
      exact ⟨rfl, [], by simp, by simp⟩

theorem mem_starRun_complete (f : St → List St) (L : List Char → Prop)
    (hf : ∀ (st : St) (w r : List Char), st.rest = w ++ r → L w → (⟨r, st.caps⟩ : St) ∈ f st) :
    ∀ (ws : List (List Char)) (k : Nat) (st : St) (r : List Char),
      st.rest = ws.flatten ++ r → (∀ u ∈ ws, L u) → st.rest.length ≤ k →
      (⟨r, st.caps⟩ : St) ∈ starRun f k st := by
  intro ws
  induction ws with
  | nil =>
    intro k st r h _ _
    have : (⟨r, st.caps⟩ : St) = st := by
      cases st; simp at h; simp [h]
    rw [this]
    exact starRun_self f k st
  | cons u ws ih =>
    intro k st r h hL hk
    by_cases hu : u = []
    · subst hu
      exact ih k st r (by simpa using h) (fun v hv => hL v (List.mem_cons_of_mem _ hv)) hk
    · have hlen : 0 < u.length := List.length_pos.2 hu
      have hst : st.rest.length = u.length + (ws.flatten ++ r).length := by
        rw [h]; simp [List.length_append]
      cases k with
      | zero => omega
      | succ k =>
        simp only [starRun, List.mem_append, List.mem_flatMap, List.mem_filter,
          List.mem_singleton]
        left
        refine ⟨⟨ws.flatten ++ r, st.caps⟩, ⟨?_, ?_⟩, ?_⟩
        · exact hf st u (ws.flatten ++ r) (by rw [h]; simp) (hL u (List.mem_cons_self _ _))
        · simp only [decide_eq_true_eq]; omega
        · exact ih k ⟨ws.flatten ++ r, st.caps⟩ r rfl
            (fun v hv => hL v (List.mem_cons_of_mem _ hv)) (by simp only; omega)

/-- Outcomes of a plain pattern are exactly the splits of the input into a word of its
language and a remainder; the groups are left as they were. -/
theorem mem_run_plain (n : Nat) : ∀ (re : Regex), re.plain = true → ∀ (st st' : St),
    st' ∈ run n re st ↔
      st'.caps = st.caps ∧ ∃ w, st.rest = w ++ st'.rest ∧ Lang re w := by
  intro re
  induction re with
  | empty =>
    intro _ st st'
    simp only [run, List.mem_singleton, Lang]
    constructor
    · rintro rfl; exact ⟨rfl, [], rfl, rfl⟩
    · rintro ⟨hc, w, hw, rfl⟩
      rw [St.ext_iff2]; exact ⟨by simpa using hw.symm, hc⟩
  | bol => intro h; simp [Regex.plain] at h
  | eol => intro h; simp [Regex.plain] at h
  | cls rs =>
    intro _ st st'
    simp only [run, Lang]
    constructor
    · intro h
      split at h
      · simp at h
      · rename_i c cs hr
        split at h
        · simp only [List.mem_singleton] at h
          subst h
          exact ⟨rfl, [c], by simp [hr], c, rfl, by assumption⟩
        · simp at h
    · rintro ⟨hc, w, hw, c, rfl, hcl⟩
      rw [hw]
      simp only [List.singleton_append, hcl, if_true, List.mem_singleton]
      rw [St.ext_iff2]; exact ⟨rfl, hc⟩
  | seq a b iha ihb =>
    intro hp st st'
    simp only [Regex.plain, Bool.and_eq_true] at hp
    simp only [run, List.mem_flatMap, Lang]
    constructor
    · rintro ⟨st1, h1, h2⟩
      obtain ⟨hc1, u, hu, hLu⟩ := (iha hp.1 st st1).1 h1
      obtain ⟨hc2, v, hv, hLv⟩ := (ihb hp.2 st1 st').1 h2
      exact ⟨hc2.trans hc1, u ++ v, by rw [hu, hv]; simp, u, v, rfl, hLu, hLv⟩
    · rintro ⟨hc, w, hw, u, v, rfl, hLu, hLv⟩
      refine ⟨⟨v ++ st'.rest, st.caps⟩, ?_, ?_⟩
      · exact (iha hp.1 _ _).2 ⟨rfl, u, by rw [hw]; simp, hLu⟩
      · exact (ihb hp.2 _ _).2 ⟨hc, v, rfl, hLv⟩
  | alt a b iha ihb =>
    intro hp st st'
    simp only [Regex.plain, Bool.and_eq_true] at hp
    simp only [run, List.mem_append, Lang, iha hp.1, ihb hp.2]
    constructor
    · rintro (⟨hc, w, hw, hL⟩ | ⟨hc, w, hw, hL⟩)
      · exact ⟨hc, w, hw, Or.inl hL⟩
      · exact ⟨hc, w, hw, Or.inr hL⟩
    · rintro ⟨hc, w, hw, hL | hL⟩
      · exact Or.inl ⟨hc, w, hw, hL⟩
      · exact Or.inr ⟨hc, w, hw, hL⟩
  | star a iha =>
    intro hp st st'
    simp only [Regex.plain] at hp
    simp only [run, Lang]
    constructor
    · intro h
      obtain ⟨hc, ws, hws, hL⟩ := mem_starRun_sound (fun s => run n a s) (Lang a)
        (fun s s' hs => (iha hp s s').1 hs) _ st st' h
      exact ⟨hc, ws.flatten, hws, ws, rfl, hL⟩
    · rintro ⟨hc, w, hw, ws, rfl, hL⟩
      have := mem_starRun_complete (fun s => run n a s) (Lang a)
        (fun s w r hs hw => (iha hp s ⟨r, s.caps⟩).2 ⟨rfl, w, hs, hw⟩)
        ws st.rest.length st st'.rest hw hL (le_refl _)
      rw [← hc] at this
      exact this
  | cap i a _ => intro h; simp [Regex.plain] at h

/-- A plain pattern matches a word in full exactly when the word is in its language. -/
theorem fullMatch_iff (re : Regex) (hp : re.plain = true) (w : List Char) :
    fullMatch re w = true ↔ Lang re w := by
  simp only [fullMatch, List.any_eq_true, List.isEmpty_iff]
  constructor
  · rintro ⟨st, hst, hr⟩
    obtain ⟨_, u, hu, hL⟩ := (mem_run_plain _ re hp _ st).1 hst
    simp only [hr, List.append_nil] at hu
    rw [hu]; exact hL
  · intro hL
    exact ⟨⟨[], []⟩, (mem_run_plain _ re hp _ _).2 ⟨rfl, w, by simp, hL⟩, rfl⟩

/-! ## Outcomes of the reference pattern -/

theorem inClass_single (c x : Char) : inClass [(c, c)] x = true ↔ x = c := by
  simp only [inClass, List.any_cons, List.any_nil, Bool.or_false, Bool.and_eq_true,
    decide_eq_true_eq]
  constructor
  · rintro ⟨h1, h2⟩
    exact Char.le_antisymm h2 h1
  · rintro rfl
    exact ⟨Char.le_refl _, Char.le_refl _⟩

theorem mem_run_chr (n : Nat) (c : Char) (st st' : St) :
    st' ∈ run n (Regex.chr c) st ↔ st.rest = c :: st'.rest ∧ st'.caps = st.caps := by
  simp only [Regex.chr, run]
  constructor
  · intro h
    split at h
    · simp at h
    · rename_i x xs hr
      split at h
      · rename_i hx
        simp only [List.mem_singleton] at h
        subst h
        rw [inClass_single] at hx
        subst hx
        exact ⟨hr, rfl⟩
      · simp at h
  · rintro ⟨hr, hc⟩
    rw [hr]
    simp only [(inClass_single c c).2 rfl, if_true, List.mem_singleton]
    rw [St.ext_iff2]; exact ⟨rfl, hc⟩

theorem mem_run_cap (n i : Nat) (a : Regex) (ha : a.plain = true) (st st' : St) :
    st' ∈ run n (Regex.cap i a) st ↔
      ∃ w, Lang a w ∧ st.rest = w ++ st'.rest ∧ st'.caps = (i, w) :: st.caps := by
  simp only [run, List.mem_map]
  constructor
  · rintro ⟨st1, h1, rfl⟩
    obtain ⟨hc, w, hw, hL⟩ := (mem_run_plain n a ha st st1).1 h1
    refine ⟨w, hL, hw, ?_⟩
    simp only [hw, hc, List.length_append, Nat.add_sub_cancel, List.take_left]
  · rintro ⟨w, hL, hw, hc⟩
    refine ⟨⟨st'.rest, st.caps⟩, (mem_run_plain n a ha _ _).2 ⟨rfl, w, hw, hL⟩, ?_⟩
    rw [St.ext_iff2]
    simp only [hw, hc, List.length_append, Nat.add_sub_cancel, List.take_left, and_self]

theorem mem_run_eol (n : Nat) (st st' : St) :
    st' ∈ run n Regex.eol st ↔ st.rest = [] ∧ st' = st := by
  simp only [run]
  split
  · rename_i h
    simp [List.length_eq_zero.1 h]
  · rename_i h
    simp only [List.not_mem_nil, false_iff, not_and]
    intro h2; rw [h2] at h; simp at h

/-- An optional part is tried before it is skipped. -/
theorem run_seq_opt (n : Nat) (a k : Regex) (st : St) :
    run n (Regex.seq (Regex.opt a) k) st =
      (run n a st).flatMap (fun st' => run n k st') ++ run n k st := by
  simp [run, Regex.opt, List.flatMap_append]

theorem mem_run_seq (n : Nat) (a b : Regex) (st st' : St) :
    st' ∈ run n (Regex.seq a b) st ↔ ∃ s1, s1 ∈ run n a st ∧ st' ∈ run n b s1 := by
  simp [run, List.mem_flatMap]

/-- Outcomes that take an optional group introduced by the character `c`. -/
theorem mem_run_sep_cap (n i : Nat) (c : Char) (a k : Regex) (ha : a.plain = true)
    (st st' : St) :
    st' ∈ (run n (Regex.seq (Regex.chr c) (Regex.cap i a)) st).flatMap
        (fun s => run n k s) ↔
      ∃ w r, Lang a w ∧ st.rest = c :: w ++ r ∧ st' ∈ run n k ⟨r, (i, w) :: st.caps⟩ := by
  rw [List.mem_flatMap]
  constructor
  · rintro ⟨s2, h12, h3⟩
    obtain ⟨s1, h1, h2⟩ := (mem_run_seq n _ _ st s2).1 h12
    have h1 := (mem_run_chr n c st s1).1 h1
    obtain ⟨w, hL, hw, hc⟩ := (mem_run_cap n i a ha s1 s2).1 h2
    refine ⟨w, s2.rest, hL, ?_, ?_⟩
    · rw [h1.1, hw]; simp
    · have : s2 = ⟨s2.rest, (i, w) :: st.caps⟩ := by
        rw [St.ext_iff2]; exact ⟨rfl, by rw [hc, h1.2]⟩
      rw [← this]; exact h3
  · rintro ⟨w, r, hL, hr, h3⟩
    refine ⟨⟨r, (i, w) :: st.caps⟩, (mem_run_seq n _ _ st _).2 ⟨⟨w ++ r, st.caps⟩, ?_, ?_⟩, h3⟩
    · exact (mem_run_chr n c st _).2 ⟨by rw [hr]; simp, rfl⟩
    · exact (mem_run_cap n i a ha ⟨w ++ r, st.caps⟩ ⟨r, (i, w) :: st.caps⟩).2
        ⟨w, hL, rfl, rfl⟩

/-- Outcomes that take an optional group closed by the character `c`. -/
theorem mem_run_cap_sep (n i : Nat) (c : Char) (a k : Regex) (ha : a.plain = true)
    (st st' : St) :
    st' ∈ (run n (Regex.seq (Regex.cap i a) (Regex.chr c)) st).flatMap
        (fun s => run n k s) ↔
      ∃ w r, Lang a w ∧ st.rest = w ++ c :: r ∧ st' ∈ run n k ⟨r, (i, w) :: st.caps⟩ := by
  rw [List.mem_flatMap]
  constructor
  · rintro ⟨s2, h12, h3⟩
    obtain ⟨s1, h1, h2⟩ := (mem_run_seq n _ _ st s2).1 h12
    obtain ⟨w, hL, hw, hc⟩ := (mem_run_cap n i a ha st s1).1 h1
    have h2 := (mem_run_chr n c s1 s2).1 h2
    refine ⟨w, s2.rest, hL, ?_, ?_⟩
    · rw [hw, h2.1]
    · have : s2 = ⟨s2.rest, (i, w) :: st.caps⟩ := by
        rw [St.ext_iff2]; exact ⟨rfl, by rw [h2.2, hc]⟩
      rw [← this]; exact h3
  · rintro ⟨w, r, hL, hr, h3⟩
    refine ⟨⟨r, (i, w) :: st.caps⟩,
      (mem_run_seq n _ _ st _).2 ⟨⟨c :: r, (i, w) :: st.caps⟩, ?_, ?_⟩, h3⟩
    · exact (mem_run_cap n i a ha st ⟨c :: r, (i, w) :: st.caps⟩).2 ⟨w, hL, hr, rfl⟩
    · exact (mem_run_chr n c _ _).2 ⟨rfl, rfl⟩

/-! ## Decompositions of a reference -/

theorem registryS_plain : registryS.plain = true := by decide

theorem repoS_plain : repoS.plain = true := by decide

theorem upto_plain (a : Regex) (h : a.plain = true) : ∀ k, (Regex.upto k a).plain = true := by
  intro k
  induction k with
  | zero => rfl
  | succ k ih => simp [Regex.upto, Regex.opt, Regex.plain, h, ih]

theorem times_plain (a : Regex) (h : a.plain = true) : ∀ k, (Regex.times k a).plain = true := by
  intro k
  induction k with
  | zero => rfl
  | succ k ih => simp [Regex.times, Regex.plain, h, ih]

theorem plain_seq (a b : Regex) : (Regex.seq a b).plain = (a.plain && b.plain) := rfl

theorem tagS_plain : tagS.plain = true := by
  rw [tagS, plain_seq, upto_plain (Regex.cls _) rfl]
  rfl

theorem digestS_plain : digestS.plain = true := by
  rw [digestS, plain_seq, plain_seq, plain_seq, plain_seq, Regex.atLeast, plain_seq,
    times_plain (Regex.cls _) rfl]
  rfl

theorem refRE_eq : refRE = Regex.seq Regex.bol
    (Regex.seq (Regex.opt (Regex.seq (Regex.cap 1 registryS) (Regex.chr '/'))) afterRegistry) :=
  rfl

theorem mem_run_afterTag (n : Nat) (st st' : St) :
    st' ∈ run n afterTag st ↔
      ∃ d, OptLang digestS d ∧ st.rest = withSep '@' d ∧ st' = ⟨[], capOf 4 d ++ st.caps⟩ := by
  rw [afterTag, run_seq_opt, List.mem_append, mem_run_sep_cap n 4 '@' _ _ digestS_plain]
  constructor
  · rintro (⟨w, r, hL, hr, h⟩ | h)
    · obtain ⟨h1, h2⟩ := (mem_run_eol n _ _).1 h
      have h1 : r = [] := h1
      subst h1
      exact ⟨some w, hL, by simpa [withSep] using hr, by simpa [capOf] using h2⟩
    · obtain ⟨h1, h2⟩ := (mem_run_eol n _ _).1 h
      refine ⟨none, trivial, h1, ?_⟩
      rw [h2, St.ext_iff2]; exact ⟨h1, rfl⟩
  · rintro ⟨d, hL, hr, rfl⟩
    cases d with
    | none =>
      right
      refine (mem_run_eol n _ _).2 ⟨hr, ?_⟩
      rw [St.ext_iff2]; exact ⟨hr.symm, rfl⟩
    | some w =>
      left
      exact ⟨w, [], hL, by simpa [withSep] using hr, (mem_run_eol n _ _).2 ⟨rfl, rfl⟩⟩

theorem mem_run_afterRepo (n : Nat) (st st' : St) :
    st' ∈ run n afterRepo st ↔
      ∃ t d, OptLang tagS t ∧ OptLang digestS d ∧
        st.rest = withSep ':' t ++ withSep '@' d ∧
        st' = ⟨[], capOf 4 d ++ (capOf 3 t ++ st.caps)⟩ := by
  rw [afterRepo, run_seq_opt, List.mem_append, mem_run_sep_cap n 3 ':' _ _ tagS_plain]
  simp only [mem_run_afterTag]
  constructor
  · rintro (⟨w, r, hL, hr, d, hd, hr2, h⟩ | ⟨d, hd, hr, h⟩)
    · have hr2 : r = withSep '@' d := hr2
      subst hr2
      exact ⟨some w, d, hL, hd, by simpa [withSep] using hr, by simpa [capOf] using h⟩
    · exact ⟨none, d, trivial, hd, by simpa [withSep] using hr, by simpa [capOf] using h⟩
  · rintro ⟨t, d, ht, hd, hr, h⟩
    cases t with
    | none =>
      right
      exact ⟨d, hd, by simpa [withSep] using hr, by simpa [capOf] using h⟩
    | some w =>
      left
      exact ⟨w, withSep '@' d, ht, by simpa [withSep] using hr, d, hd, rfl,
        by simpa [capOf] using h⟩

theorem mem_run_afterRegistry (n : Nat) (st st' : St) :
    st' ∈ run n afterRegistry st ↔
      ∃ r t d, Lang repoS r ∧ OptLang tagS t ∧ OptLang digestS d ∧
        st.rest = r ++ (withSep ':' t ++ withSep '@' d) ∧
        st' = ⟨[], capOf 4 d ++ (capOf 3 t ++ ((2, r) :: st.caps))⟩ := by
  rw [afterRegistry, mem_run_seq]
  constructor
  · rintro ⟨s1, h1, h2⟩
    obtain ⟨r, hL, hr, hc⟩ := (mem_run_cap n 2 repoS repoS_plain st s1).1 h1
    obtain ⟨t, d, ht, hd, hr2, h⟩ := (mem_run_afterRepo n s1 st').1 h2
    exact ⟨r, t, d, hL, ht, hd, by rw [hr, hr2], by rw [h, hc]⟩
  · rintro ⟨r, t, d, hL, ht, hd, hr, h⟩
    refine ⟨⟨withSep ':' t ++ withSep '@' d, (2, r) :: st.caps⟩, ?_, ?_⟩
    · exact (mem_run_cap n 2 repoS repoS_plain _ _).2 ⟨r, hL, hr, rfl⟩
    · exact (mem_run_afterRepo n _ _).2 ⟨t, d, ht, hd, rfl, h⟩

/-- The anchor `^` lets a match start at the beginning of the input only. -/
theorem run_bol (n : Nat) (k : Regex) (st : St) :
    run n (Regex.seq Regex.bol k) st = if st.rest.length = n then run n k st else [] := by
  simp only [run]
  split <;> simp

/-- Outcomes with a registry are preferred to outcomes without. -/
theorem outcomes_eq (s : List Char) : outcomes s = withRegistry s ++ withoutRegistry s := by
  rw [outcomes, refRE_eq, run_bol, if_pos rfl, run_seq_opt, withRegistry, withoutRegistry]

theorem mem_withRegistry (s : List Char) (st : St) :
    st ∈ withRegistry s ↔
      ∃ p : Parse, p.Valid ∧ p.registry.isSome = true ∧ p.render = s ∧ st = ⟨[], p.caps⟩ := by
  rw [withRegistry, mem_run_cap_sep _ 1 '/' _ _ registryS_plain]
  simp only [mem_run_afterRegistry]
  constructor
  · rintro ⟨g, x, hg, hs, r, t, d, hr, ht, hd, hx, h⟩
    have hs : s = g ++ '/' :: x := hs
    have hx : x = r ++ (withSep ':' t ++ withSep '@' d) := hx
    refine ⟨⟨some g, r, t, d⟩, ⟨hg, hr, ht, hd⟩, rfl, ?_, ?_⟩
    · simp [Parse.render, Parse.tail, regPart, hs, hx]
    · simpa [Parse.caps, capOf] using h
  · rintro ⟨⟨g, r, t, d⟩, ⟨hg, hr, ht, hd⟩, hsome, hs, h⟩
    cases g with
    | none => simp at hsome
    | some g =>
      refine ⟨g, r ++ (withSep ':' t ++ withSep '@' d), hg, ?_, r, t, d, hr, ht, hd, rfl, ?_⟩
      · simp [← hs, Parse.render, Parse.tail, regPart]
      · simpa [Parse.caps, capOf] using h

theorem mem_withoutRegistry (s : List Char) (st : St) :
    st ∈ withoutRegistry s ↔
      ∃ p : Parse, p.Valid ∧ p.registry = none ∧ p.render = s ∧ st = ⟨[], p.caps⟩ := by
  rw [withoutRegistry, mem_run_afterRegistry]
  constructor
  · rintro ⟨r, t, d, hr, ht, hd, hs, h⟩
    have hs : s = r ++ (withSep ':' t ++ withSep '@' d) := hs
    refine ⟨⟨none, r, t, d⟩, ⟨trivial, hr, ht, hd⟩, rfl, ?_, ?_⟩
    · simp [Parse.render, Parse.tail, regPart, hs]
    · simpa [Parse.caps, capOf] using h
  · rintro ⟨⟨g, r, t, d⟩, ⟨hg, hr, ht, hd⟩, hnone, hs, h⟩
    have hnone : g = none := hnone
    subst hnone
    refine ⟨r, t, d, hr, ht, hd, ?_, ?_⟩
    · simp [← hs, Parse.render, Parse.tail, regPart]
    · simpa [Parse.caps, capOf] using h

/-! ## Characters of the parts of a reference -/

theorem inClass_append (xs ys : List (Char × Char)) (c : Char) :
    inClass (xs ++ ys) c = (inClass xs c || inClass ys c) := by
  simp [inClass, List.any_append]

/-- Every character of a word of the language is in a class of the pattern. -/
theorem Lang_alphabet : ∀ (re : Regex) (w : List Char), Lang re w →
    ∀ c ∈ w, inClass re.alphabet c = true := by
  intro re
  induction re with
  | empty => intro w h c hc; simp only [Lang] at h; subst h; simp at hc
  | bol => intro w h c hc; simp only [Lang] at h; subst h; simp at hc
  | eol => intro w h c hc; simp only [Lang] at h; subst h; simp at hc
  | cls rs =>
    intro w h c hc
    obtain ⟨x, rfl, hx⟩ := h
    simp only [List.mem_singleton] at hc
    subst hc
    exact hx
  | seq a b iha ihb =>
    intro w h c hc
    obtain ⟨u, v, rfl, hu, hv⟩ := h
    simp only [Regex.alphabet, inClass_append, Bool.or_eq_true]
    rcases List.mem_append.1 hc with h1 | h1
    · exact Or.inl (iha u hu c h1)
    · exact Or.inr (ihb v hv c h1)
  | alt a b iha ihb =>
    intro w h c hc
    simp only [Regex.alphabet, inClass_append, Bool.or_eq_true]
    rcases h with h | h
    · exact Or.inl (iha w h c hc)
    · exact Or.inr (ihb w h c hc)
  | star a iha =>
    intro w h c hc
    obtain ⟨ws, rfl, hws⟩ := h
    obtain ⟨u, hu, hcu⟩ := List.mem_flatten.1 hc
    exact iha u (hws u hu) c hcu
  | cap i a iha =>
    intro w h c hc
    exact iha w h c hc

theorem alphabet_upto (a : Regex) (c : Char) : ∀ k,
    inClass (Regex.upto k a).alphabet c = true → inClass a.alphabet c = true := by
  intro k
  induction k with
  | zero => intro h; simp [Regex.upto, Regex.alphabet, inClass] at h
  | succ k ih =>
    intro h
    simp only [Regex.upto, Regex.opt, Regex.alphabet, inClass_append, Bool.or_eq_true] at h
    rcases h with (h | h) | h
    · exact h
    · exact ih h
    · simp [inClass] at h

theorem inClass_of_subClass (xs ks : List (Char × Char)) (h : subClass xs ks = true)
    (c : Char) (hc : inClass xs c = true) : inClass ks c = true := by
  simp only [inClass, List.any_eq_true, Bool.and_eq_true, decide_eq_true_eq] at hc ⊢
  simp only [subClass, List.all_eq_true, List.any_eq_true, Bool.and_eq_true,
    decide_eq_true_eq] at h
  obtain ⟨r, hr, h1, h2⟩ := hc
  obtain ⟨k, hk, h3, h4⟩ := h r hr
  exact ⟨k, hk, Char.le_trans h3 h1, Char.le_trans h2 h4⟩

theorem repo_chars (r : List Char) (h : Lang repoS r) :
    ∀ c ∈ r, inClass repoChars c = true := fun c hc =>
  inClass_of_subClass _ _ (by decide) c (Lang_alphabet repoS r h c hc)

theorem registry_chars (g : List Char) (h : Lang registryS g) :
    ∀ c ∈ g, inClass registryChars c = true := fun c hc =>
  inClass_of_subClass _ _ (by decide) c (Lang_alphabet registryS g h c hc)

theorem tag_chars (t : List Char) (h : Lang tagS t) :
    ∀ c ∈ t, inClass tagChars c = true := by
  intro c hc
  have := Lang_alphabet tagS t h c hc
  rw [tagS, Regex.alphabet, inClass_append, Bool.or_eq_true] at this
  rcases this with h1 | h1
  · exact inClass_of_subClass _ _ (by decide) c h1
  · exact alphabet_upto _ c 127 h1

/-! ## Uniqueness of a decomposition -/

/-- A word without separators followed by nothing or by a separator is determined by
the whole text. -/
theorem split_unique (P : Char → Prop) : ∀ (u v x y : List Char),
    (∀ c ∈ u, ¬ P c) → (∀ c ∈ v, ¬ P c) → (∀ c ∈ x.head?, P c) → (∀ c ∈ y.head?, P c) →
    u ++ x = v ++ y → u = v ∧ x = y := by
  intro u
  induction u with
  | nil =>
    intro v x y _ hv hx _ h
    cases v with
    | nil => exact ⟨rfl, by simpa using h⟩
    | cons c v =>
      exfalso
      simp only [List.nil_append] at h
      subst h
      exact hv c (List.mem_cons_self _ _) (hx c (by simp))
  | cons a u ih =>
    intro v x y hu hv hx hy h
    cases v with
    | nil =>
      exfalso
      simp only [List.nil_append] at h
      subst h
      exact hu a (List.mem_cons_self _ _) (hy a (by simp))
    | cons b v =>
      simp only [List.cons_append, List.cons.injEq] at h
      obtain ⟨hab, h⟩ := h
      obtain ⟨h1, h2⟩ := ih v x y (fun c hc => hu c (List.mem_cons_of_mem _ hc))
        (fun c hc => hv c (List.mem_cons_of_mem _ hc)) hx hy h
      exact ⟨by rw [hab, h1], h2⟩

theorem not_inClass_of_decide (ks : List (Char × Char)) (x : Char)
    (hx : inClass ks x = false) (c : Char) (hc : inClass ks c = true) : c ≠ x := by
  rintro rfl
  rw [hx] at hc
  exact Bool.false_ne_true hc

theorem withSep_inj (c : Char) (a b : Option (List Char)) (h : withSep c a = withSep c b) :
    a = b := by
  cases a <;> cases b <;> simp_all [withSep]

/-- The tag and the digest are determined by the text after the repository. -/
theorem suffix_unique (t t' d d' : Option (List Char)) (ht : OptLang tagS t)
    (ht' : OptLang tagS t')
    (h : withSep ':' t ++ withSep '@' d = withSep ':' t' ++ withSep '@' d') :
    t = t' ∧ d = d' := by
  cases t with
  | none =>
    cases t' with
    | none => exact ⟨rfl, withSep_inj '@' d d' (by simpa [withSep] using h)⟩
    | some w' => cases d <;> simp [withSep] at h
  | some w =>
    cases t' with
    | none => cases d' <;> simp [withSep] at h
    | some w' =>
      simp only [withSep, List.cons_append, List.cons.injEq, true_and] at h
      have key := split_unique (fun c => c = '@') w w' (withSep '@' d) (withSep '@' d')
        (fun c hc => not_inClass_of_decide tagChars '@' (by decide) c (tag_chars w ht c hc))
        (fun c hc => not_inClass_of_decide tagChars '@' (by decide) c (tag_chars w' ht' c hc))
        (by cases d <;> simp [withSep]) (by cases d' <;> simp [withSep]) h
      exact ⟨by rw [key.1], withSep_inj '@' d d' key.2⟩

/-- The repository, the tag and the digest are determined by the text after the
registry. -/
theorem tail_unique (p q : Parse) (hp : p.Valid) (hq : q.Valid) (h : p.tail = q.tail) :
    p.repository = q.repository ∧ p.tag = q.tag ∧ p.digest = q.digest := by
  have hsep : ∀ (t d : Option (List Char)), ∀ c ∈ (withSep ':' t ++ withSep '@' d).head?,
      c = ':' ∨ c = '@' := by
    intro t d c hc
    cases t <;> cases d <;> simp [withSep] at hc <;> subst hc <;> simp
  have hrepo : ∀ r : List Char, Lang repoS r → ∀ c ∈ r, ¬ (c = ':' ∨ c = '@') := by
    intro r hr c hc hcc
    have h1 := repo_chars r hr c hc
    rcases hcc with rfl | rfl
    · exact absurd h1 (by decide)
    · exact absurd h1 (by decide)
  have key := split_unique (fun c => c = ':' ∨ c = '@') p.repository q.repository _ _
    (hrepo _ hp.2.1) (hrepo _ hq.2.1) (hsep p.tag p.digest) (hsep q.tag q.digest) h
  exact ⟨key.1, suffix_unique _ _ _ _ hp.2.2.1 hq.2.2.1 key.2⟩

/-- Two decompositions of the same text that both have, or both lack, a registry are
equal. -/
theorem Parse.unique (p q : Parse) (hp : p.Valid) (hq : q.Valid) (h : p.render = q.render)
    (hreg : p.registry.isSome = q.registry.isSome) : p = q := by
  have main : p.registry = q.registry ∧ p.tail = q.tail := by
    rcases p with ⟨g, r, t, d⟩
    rcases q with ⟨g', r', t', d'⟩
    cases g with
    | none =>
      cases g' with
      | none => exact ⟨rfl, by simpa [Parse.render, regPart] using h⟩
      | some _ => simp at hreg
    | some g =>
      cases g' with
      | none => simp at hreg
      | some g' =>
        have hno : ∀ w : List Char, Lang registryS w → ∀ c ∈ w, ¬ (c = '/') := by
          intro w hw c hc hcc
          have h1 := registry_chars w hw c hc
          subst hcc
          exact absurd h1 (by decide)
        simp only [Parse.render, regPart, List.append_assoc, List.singleton_append] at h
        have key := split_unique (fun c => c = '/') g g' _ _ (hno g hp.1) (hno g' hq.1)
          (by simp) (by simp) h
        exact ⟨by rw [key.1], by simpa using key.2⟩
  obtain ⟨h1, h2, h3⟩ := tail_unique p q hp hq main.2
  rcases p with ⟨g, r, t, d⟩
  rcases q with ⟨g', r', t', d'⟩
  simp only [Parse.mk.injEq]
  exact ⟨main.1, h1, h2, h3⟩

/-! ## The preferred outcome -/

/-- A text that has a decomposition with a registry is matched as that decomposition. -/
theorem outcomes_head_registry (p : Parse) (hp : p.Valid) (hreg : p.registry.isSome = true) :
    (outcomes p.render).head? = some ⟨[], p.caps⟩ := by
  have hmem : (⟨[], p.caps⟩ : St) ∈ withRegistry p.render :=
    (mem_withRegistry _ _).2 ⟨p, hp, hreg, rfl, rfl⟩
  rw [outcomes_eq]
  cases hL : withRegistry p.render with
  | nil => rw [hL] at hmem; simp at hmem
  | cons st l =>
    have hst : st ∈ withRegistry p.render := by rw [hL]; exact List.mem_cons_self _ _
    obtain ⟨q, hq, hqreg, hqs, rfl⟩ := (mem_withRegistry _ _).1 hst
    have : q = p := Parse.unique q p hq hp hqs (by rw [hqreg, hreg])
    subst this
    rfl

/-- A text that has a decomposition without registry and none with a registry is matched
as that decomposition. -/
theorem outcomes_head_no_registry (p : Parse) (hp : p.Valid) (hreg : p.registry = none)
    (hno : ∀ q : Parse, q.Valid → q.registry.isSome = true → q.render ≠ p.render) :
    (outcomes p.render).head? = some ⟨[], p.caps⟩ := by
  have hmem : (⟨[], p.caps⟩ : St) ∈ withoutRegistry p.render :=
    (mem_withoutRegistry _ _).2 ⟨p, hp, hreg, rfl, rfl⟩
  have hnil : withRegistry p.render = [] := by
    cases hL : withRegistry p.render with
    | nil => rfl
    | cons st l =>
      have hst : st ∈ withRegistry p.render := by rw [hL]; exact List.mem_cons_self _ _
      obtain ⟨q, hq, hqreg, hqs, _⟩ := (mem_withRegistry _ _).1 hst
      exact absurd hqs (hno q hq hqreg)
  rw [outcomes_eq, hnil, List.nil_append]
  cases hL : withoutRegistry p.render with
  | nil => rw [hL] at hmem; simp at hmem
  | cons st l =>
    have hst : st ∈ withoutRegistry p.render := by rw [hL]; exact List.mem_cons_self _ _
    obtain ⟨q, hq, hqreg, hqs, rfl⟩ := (mem_withoutRegistry _ _).1 hst
    have : q = p := Parse.unique q p hq hp hqs (by rw [hqreg, hreg])
    subst this
    rfl

/-- Every outcome reads the whole input as a valid decomposition. -/
theorem mem_outcomes (s : List Char) (st : St) :
    st ∈ outcomes s ↔ ∃ p : Parse, p.Valid ∧ p.render = s ∧ st = ⟨[], p.caps⟩ := by
  rw [outcomes_eq, List.mem_append, mem_withRegistry, mem_withoutRegistry]
  constructor
  · rintro (⟨p, hp, _, hs, h⟩ | ⟨p, hp, _, hs, h⟩)
    · exact ⟨p, hp, hs, h⟩
    · exact ⟨p, hp, hs, h⟩
  · rintro ⟨p, hp, hs, h⟩
    cases hr : p.registry with
    | none => exact Or.inr ⟨p, hp, hr, hs, h⟩
    | some g => exact Or.inl ⟨p, hp, by rw [hr]; rfl, hs, h⟩

/-- There is no outcome exactly when the input is not in the reference grammar. -/
theorem outcomes_eq_nil_iff (s : List Char) : outcomes s = [] ↔ ¬ RefGrammar s := by
  constructor
  · rintro h ⟨p, hp, hs⟩
    have : (⟨[], p.caps⟩ : St) ∈ outcomes s := (mem_outcomes s _).2 ⟨p, hp, hs, rfl⟩
    rw [h] at this
    simp at this
  · intro h
    cases hL : outcomes s with
    | nil => rfl
    | cons st l =>
      exfalso
      have hst : st ∈ outcomes s := by rw [hL]; exact List.mem_cons_self _ _
      obtain ⟨p, hp, hs, _⟩ := (mem_outcomes s st).1 hst
      exact h ⟨p, hp, hs⟩

/-! ## From the outcomes to `imageSplit` -/

theorem search_refRE_short (n : Nat) : ∀ l : List Char, l.length < n →
    search refRE n l = none := by
  intro l
  induction l with
  | nil =>
    intro h
    have h0 : (⟨[], []⟩ : St).rest.length ≠ n := by simp only [List.length_nil]; omega
    rw [search, refRE_eq, run_bol, if_neg h0]
    rfl
  | cons c cs ih =>
    intro h
    have h0 : (⟨c :: cs, []⟩ : St).rest.length ≠ n := Nat.ne_of_lt h
    have h1 : cs.length < n := by simp only [List.length_cons] at h; omega
    rw [search, refRE_eq, run_bol, if_neg h0, ← refRE_eq]
    exact ih h1

/-- The pattern is anchored: the search reports the preferred outcome at offset 0. -/
theorem search_refRE (s : List Char) :
    search refRE s.length s = ((outcomes s).head?).map (fun st => (s, st)) := by
  cases s with
  | nil => rw [search, outcomes]
  | cons c cs =>
    rw [search, outcomes]
    cases h : (run (c :: cs).length refRE ⟨c :: cs, []⟩).head? with
    | some st => rfl
    | none => exact search_refRE_short _ cs (by simp)

set_option maxRecDepth 4096 in
theorem numSubexp_refRE : refRE.numSubexp = 4 := by
  decide

/-- The result of `imageSplit` in terms of the outcomes of `refRE`. -/
theorem imageSplit_eq (s : String) :
    imageSplit s =
      match (outcomes s.data).head? with
      | none => ("", "", "", "", some ("failed to parse ref " ++ s))
      | some st => (group st 1, group st 2, group st 3, group st 4, none) := by
  rw [imageSplit, FindStringSubmatch, search_refRE, numSubexp_refRE]
  cases (outcomes s.data).head? with
  | none => rfl
  | some st => rfl

theorem group_caps (p : Parse) :
    group ⟨[], p.caps⟩ 1 = optStr p.registry ∧
    group ⟨[], p.caps⟩ 2 = String.mk p.repository ∧
    group ⟨[], p.caps⟩ 3 = optStr p.tag ∧
    group ⟨[], p.caps⟩ 4 = optStr p.digest := by
  rcases p with ⟨g, r, t, d⟩
  cases g <;> cases t <;> cases d <;> simp [group, Parse.caps, capOf, getCap, optStr]

theorem imageSplit_of_head (s : String) (p : Parse)
    (h : (outcomes s.data).head? = some ⟨[], p.caps⟩) : imageSplit s = p.result := by
  rw [imageSplit_eq, h]
  obtain ⟨h1, h2, h3, h4⟩ := group_caps p
  simp only [h1, h2, h3, h4, Parse.result]

/-- A reference with a registry is split into the parts of its decomposition. -/
theorem imageSplit_registry (s : String) (p : Parse) (hp : p.Valid)
    (hreg : p.registry.isSome = true) (hs : s.data = p.render) : imageSplit s = p.result :=
  imageSplit_of_head s p (by rw [hs]; exact outcomes_head_registry p hp hreg)

/-- A reference that can only be read without registry is split into the parts of its
decomposition. -/
theorem imageSplit_no_registry (s : String) (p : Parse) (hp : p.Valid)
    (hreg : p.registry = none) (hs : s.data = p.render)
    (hno : ∀ q : Parse, q.Valid → q.registry.isSome = true → q.render ≠ s.data) :
    imageSplit s = p.result :=
  imageSplit_of_head s p (by rw [hs]; exact outcomes_head_no_registry p hp hreg (hs ▸ hno))

/-- A reference outside the grammar is rejected. -/
theorem imageSplit_reject (s : String) (h : ¬ RefGrammar s.data) :
    imageSplit s = ("", "", "", "", some ("failed to parse ref " ++ s)) := by
  rw [imageSplit_eq, (outcomes_eq_nil_iff s.data).2 h]
  rfl

/-- A reference of the grammar is split into the parts of one of its decompositions, the
one with a registry when there is one. -/
theorem imageSplit_accept (s : String) (h : RefGrammar s.data) :
    ∃ p : Parse, p.Valid ∧ p.render = s.data ∧ imageSplit s = p.result ∧
      (p.registry = none →
        ∀ q : Parse, q.Valid → q.registry.isSome = true → q.render ≠ s.data) := by
  obtain ⟨p, hp, hs⟩ := h
  by_cases hex : ∃ q : Parse, q.Valid ∧ q.registry.isSome = true ∧ q.render = s.data
  · obtain ⟨q, hq, hqr, hqs⟩ := hex
    refine ⟨q, hq, hqs, imageSplit_registry s q hq hqr hqs.symm, ?_⟩
    intro hnone; rw [hnone] at hqr; simp at hqr
  · have hno : ∀ q : Parse, q.Valid → q.registry.isSome = true → q.render ≠ s.data :=
      fun q hq hqr hqs => hex ⟨q, hq, hqr, hqs⟩
    have hreg : p.registry = none := by
      cases hr : p.registry with
      | none => rfl
      | some g => exact absurd hs (hno p hp (by rw [hr]; rfl))
    exact ⟨p, hp, hs, imageSplit_no_registry s p hp hreg hs.symm hno, fun _ => hno⟩

/-! ## First and last characters -/

theorem flatten_first (ks : List (Char × Char)) : ∀ ws : List (List Char),
    (∀ u ∈ ws, u = [] ∨ ∃ c u', u = c :: u' ∧ inClass ks c = true) →
    ws.flatten = [] ∨ ∃ c w', ws.flatten = c :: w' ∧ inClass ks c = true := by
  intro ws
  induction ws with
  | nil => intro _; exact Or.inl rfl
  | cons u ws ih =>
    intro h
    rcases h u (List.mem_cons_self _ _) with rfl | ⟨c, u', rfl, hc⟩
    · simpa using ih (fun v hv => h v (List.mem_cons_of_mem _ hv))
    · exact Or.inr ⟨c, u' ++ ws.flatten, by simp, hc⟩

theorem flatten_last (ks : List (Char × Char)) : ∀ ws : List (List Char),
    (∀ u ∈ ws, u = [] ∨ ∃ u' c, u = u' ++ [c] ∧ inClass ks c = true) →
    ws.flatten = [] ∨ ∃ w' c, ws.flatten = w' ++ [c] ∧ inClass ks c = true := by
  intro ws
  induction ws with
  | nil => intro _; exact Or.inl rfl
  | cons u ws ih =>
    intro h
    rcases ih (fun v hv => h v (List.mem_cons_of_mem _ hv)) with h0 | ⟨w', c, hw, hc⟩
    · rcases h u (List.mem_cons_self _ _) with rfl | ⟨u', c, rfl, hc⟩
      · exact Or.inl (by simpa using h0)
      · exact Or.inr ⟨u', c, by simp [h0], hc⟩
    · exact Or.inr ⟨u ++ w', c, by simp [hw], hc⟩

/-- A word of the language is empty, with the pattern nullable, or starts with a
character of `firstSet`. -/
theorem Lang_first : ∀ (re : Regex) (w : List Char), Lang re w →
    (w = [] ∧ re.nullable = true) ∨ ∃ c w', w = c :: w' ∧ inClass re.firstSet c = true := by
  intro re
  induction re with
  | empty => intro w h; exact Or.inl ⟨h, rfl⟩
  | bol => intro w h; exact Or.inl ⟨h, rfl⟩
  | eol => intro w h; exact Or.inl ⟨h, rfl⟩
  | cls rs =>
    intro w h
    obtain ⟨c, rfl, hc⟩ := h
    exact Or.inr ⟨c, [], rfl, hc⟩
  | seq a b iha ihb =>
    intro w h
    obtain ⟨u, v, rfl, hu, hv⟩ := h
    rcases iha u hu with ⟨rfl, hna⟩ | ⟨c, u', rfl, hc⟩
    · rcases ihb v hv with ⟨rfl, hnb⟩ | ⟨c, v', rfl, hc⟩
      · exact Or.inl ⟨rfl, by simp [Regex.nullable, hna, hnb]⟩
      · exact Or.inr ⟨c, v', rfl, by simp [Regex.firstSet, hna, inClass_append, hc]⟩
    · exact Or.inr ⟨c, u' ++ v, rfl, by simp [Regex.firstSet, inClass_append, hc]⟩
  | alt a b iha ihb =>
    intro w h
    rcases h with h | h
    · rcases iha w h with ⟨rfl, hn⟩ | ⟨c, w', rfl, hc⟩
      · exact Or.inl ⟨rfl, by simp [Regex.nullable, hn]⟩
      · exact Or.inr ⟨c, w', rfl, by simp [Regex.firstSet, inClass_append, hc]⟩
    · rcases ihb w h with ⟨rfl, hn⟩ | ⟨c, w', rfl, hc⟩
      · exact Or.inl ⟨rfl, by simp [Regex.nullable, hn]⟩
      · exact Or.inr ⟨c, w', rfl, by simp [Regex.firstSet, inClass_append, hc]⟩
  | star a iha =>
    intro w h
    obtain ⟨ws, rfl, hws⟩ := h
    rcases flatten_first a.firstSet ws (fun u hu => by
      rcases iha u (hws u hu) with ⟨h0, _⟩ | h1
      · exact Or.inl h0
      · exact Or.inr h1) with h0 | h1
    · exact Or.inl ⟨h0, rfl⟩
    · exact Or.inr h1
  | cap i a iha => intro w h; exact iha w h

/-- A word of the language is empty, with the pattern nullable, or ends with a character
of `lastSet`. -/
theorem Lang_last : ∀ (re : Regex) (w : List Char), Lang re w →
    (w = [] ∧ re.nullable = true) ∨ ∃ w' c, w = w' ++ [c] ∧ inClass re.lastSet c = true := by
  intro re
  induction re with
  | empty => intro w h; exact Or.inl ⟨h, rfl⟩
  | bol => intro w h; exact Or.inl ⟨h, rfl⟩
  | eol => intro w h; exact Or.inl ⟨h, rfl⟩
  | cls rs =>
    intro w h
    obtain ⟨c, rfl, hc⟩ := h
    exact Or.inr ⟨[], c, rfl, hc⟩
  | seq a b iha ihb =>
    intro w h
    obtain ⟨u, v, rfl, hu, hv⟩ := h
    rcases ihb v hv with ⟨rfl, hnb⟩ | ⟨v', c, rfl, hc⟩
    · rcases iha u hu with ⟨rfl, hna⟩ | ⟨u', c, rfl, hc⟩
      · exact Or.inl ⟨rfl, by simp [Regex.nullable, hna, hnb]⟩
      · exact Or.inr ⟨u', c, by simp, by simp [Regex.lastSet, hnb, inClass_append, hc]⟩
    · exact Or.inr ⟨u ++ v', c, by simp, by simp [Regex.lastSet, inClass_append, hc]⟩
  | alt a b iha ihb =>
    intro w h
    rcases h with h | h
    · rcases iha w h with ⟨rfl, hn⟩ | ⟨w', c, rfl, hc⟩
      · exact Or.inl ⟨rfl, by simp [Regex.nullable, hn]⟩
      · exact Or.inr ⟨w', c, rfl, by simp [Regex.lastSet, inClass_append, hc]⟩
    · rcases ihb w h with ⟨rfl, hn⟩ | ⟨w', c, rfl, hc⟩
      · exact Or.inl ⟨rfl, by simp [Regex.nullable, hn]⟩
      · exact Or.inr ⟨w', c, rfl, by simp [Regex.lastSet, inClass_append, hc]⟩
  | star a iha =>
    intro w h
    obtain ⟨ws, rfl, hws⟩ := h
    rcases flatten_last a.lastSet ws (fun u hu => by
      rcases iha u (hws u hu) with ⟨h0, _⟩ | h1
      · exact Or.inl h0
      · exact Or.inr h1) with h0 | h1
    · exact Or.inl ⟨h0, rfl⟩
    · exact Or.inr h1
  | cap i a iha => intro w h; exact iha w h

/-- A repository starts with a character of `[a-z0-9]`. -/
theorem repo_first (r : List Char) (h : Lang repoS r) :
    ∃ c w, r = c :: w ∧ inClass [('a', 'z'), ('0', '9')] c = true := by
  rcases Lang_first repoS r h with ⟨_, hn⟩ | ⟨c, w, hr, hc⟩
  · exact absurd hn (by decide)
  · exact ⟨c, w, hr, inClass_of_subClass _ _ (by decide) c hc⟩

/-- A repository ends with a character of `[a-z0-9]`. -/
theorem repo_last (r : List Char) (h : Lang repoS r) :
    ∃ w c, r = w ++ [c] ∧ inClass [('a', 'z'), ('0', '9')] c = true := by
  rcases Lang_last repoS r h with ⟨_, hn⟩ | ⟨w, c, hr, hc⟩
  · exact absurd hn (by decide)
  · exact ⟨w, c, hr, inClass_of_subClass _ _ (by decide) c hc⟩

/-! ## Splitting references -/

theorem optStr_some (w : List Char) : optStr (some w) = String.mk w := rfl

theorem optStr_none : optStr none = "" := rfl

/-- A host name followed by a port is a registry. -/
theorem Lang_registry_host_port (h p : List Char) (hh : Lang hostNameS h)
    (hp : Lang portS p) : Lang registryS (h ++ ':' :: p) := by
  obtain ⟨u, v, rfl, hu, hv⟩ := hh
  refine Or.inr (Or.inl ?_)
  refine ⟨u, v ++ ':' :: p, by simp, hu, v, ':' :: p, rfl, hv, [], ':' :: p, rfl,
    Or.inr rfl, [':'], p, rfl, ⟨':', rfl, by decide⟩, hp⟩

/-- C1: a reference `host:port/repository:tag` is split into the registry `host:port`, the
repository and the tag, with an empty digest; without the tag, `host:port/repository` is
split into the registry `host:port` and the repository, with an empty tag: the port is
not taken for a tag. -/
theorem imageSplit_host_port (h p r t : String)
    (hh : Lang hostNameS h.data) (hp : Lang portS p.data)
    (hr : Lang repoS r.data) (ht : Lang tagS t.data) :
    imageSplit (h ++ ":" ++ p ++ "/" ++ r ++ ":" ++ t) = (h ++ ":" ++ p, r, t, "", none) ∧
    imageSplit (h ++ ":" ++ p ++ "/" ++ r) = (h ++ ":" ++ p, r, "", "", none) := by
  have hg := Lang_registry_host_port h.data p.data hh hp
  have hname : String.mk (h.data ++ ':' :: p.data) = h ++ ":" ++ p := by
    apply String.ext; simp [String.data_append]
  constructor
  · rw [imageSplit_registry _ ⟨some (h.data ++ ':' :: p.data), r.data, some t.data, none⟩
      ⟨hg, hr, ht, trivial⟩ rfl
      (by simp [String.data_append, Parse.render, Parse.tail, regPart, withSep])]
    simp only [Parse.result, optStr_some, optStr_none, hname]
  · rw [imageSplit_registry _ ⟨some (h.data ++ ':' :: p.data), r.data, none, none⟩
      ⟨hg, hr, trivial, trivial⟩ rfl
      (by simp [String.data_append, Parse.render, Parse.tail, regPart, withSep])]
    simp only [Parse.result, optStr_some, optStr_none, hname]

set_option maxRecDepth 100000 in
/-- C1, at the reference `localhost:5000/alpine:latest`. -/
theorem imageSplit_host_port_witness :
    imageSplit "localhost:5000/alpine:latest" = ("localhost:5000", "alpine", "latest", "", none) ∧
    imageSplit "localhost:5000/alpine" = ("localhost:5000", "alpine", "", "", none) :=
  imageSplit_host_port "localhost" "5000" "alpine" "latest"
    ((fullMatch_iff hostNameS (by decide) _).1 (by decide))
    ((fullMatch_iff portS (by decide) _).1 (by decide))
    ((fullMatch_iff repoS (by decide) _).1 (by decide))
    ((fullMatch_iff tagS tagS_plain _).1 (by decide))

/-- An accepted reference is split into the parts of a valid decomposition of it, the one
with a registry when there is one. -/
theorem imageSplit_ok (s g r t d : String) (h : imageSplit s = (g, r, t, d, none)) :
    ∃ p : Parse, p.Valid ∧ p.render = s.data ∧ p.result = (g, r, t, d, none) ∧
      (p.registry = none →
        ∀ q : Parse, q.Valid → q.registry.isSome = true → q.render ≠ s.data) := by
  by_cases hG : RefGrammar s.data
  · obtain ⟨p, hp, hs, hres, hno⟩ := imageSplit_accept s hG
    exact ⟨p, hp, hs, by rw [← hres, h], hno⟩
  · rw [imageSplit_reject s hG] at h
    simp at h

/-- C4: `imageSplit` returns an error exactly for the inputs outside the anchored reference
grammar; the error comes with four empty strings and the message `failed to parse ref `
followed by the input; for an input of the grammar the error is nil and the four results
are the four groups of the preferred match of `refRE`, empty for a group that took no
part, and they are the parts of a valid decomposition of the input. -/
theorem imageSplit_error_iff (s : String) :
    ((imageSplit s).2.2.2.2 ≠ none ↔ ¬ RefGrammar s.data) ∧
    (¬ RefGrammar s.data →
      imageSplit s = ("", "", "", "", some ("failed to parse ref " ++ s))) ∧
    (RefGrammar s.data →
      ∃ st, (outcomes s.data).head? = some st ∧
        imageSplit s = (group st 1, group st 2, group st 3, group st 4, none) ∧
        (∀ i, getCap st.caps i = none → group st i = "") ∧
        ∃ p : Parse, p.Valid ∧ p.render = s.data ∧ st = ⟨[], p.caps⟩ ∧
          imageSplit s = p.result) := by
  have hrej := imageSplit_reject s
  have hacc : RefGrammar s.data →
      ∃ st, (outcomes s.data).head? = some st ∧
        imageSplit s = (group st 1, group st 2, group st 3, group st 4, none) ∧
        (∀ i, getCap st.caps i = none → group st i = "") ∧
        ∃ p : Parse, p.Valid ∧ p.render = s.data ∧ st = ⟨[], p.caps⟩ ∧
          imageSplit s = p.result := by
    intro hG
    cases hh : (outcomes s.data).head? with
    | none =>
      exact absurd hG ((outcomes_eq_nil_iff s.data).1 (List.head?_eq_none_iff.1 hh))
    | some st =>
      obtain ⟨p, hp, hs, hst⟩ := (mem_outcomes s.data st).1 (List.mem_of_mem_head? hh)
      refine ⟨st, rfl, by rw [imageSplit_eq, hh], ?_, p, hp, hs, hst, ?_⟩
      · intro i hi
        simp [group, hi]
      · exact imageSplit_of_head s p (by rw [hh, hst])
  refine ⟨⟨?_, ?_⟩, hrej, hacc⟩
  · intro herr hG
    obtain ⟨st, _, hres, _⟩ := hacc hG
    rw [hres] at herr
    exact herr rfl
  · intro hG
    rw [hrej hG]
    simp

set_option maxRecDepth 100000 in
/-- C4, at the rejected input `Foo/Bar:tag`. -/
theorem imageSplit_error_iff_witness :
    imageSplit "Foo/Bar:tag" = ("", "", "", "", some "failed to parse ref Foo/Bar:tag") :=
  (imageSplit_error_iff "Foo/Bar:tag").2.1
    ((outcomes_eq_nil_iff "Foo/Bar:tag".data).1 (by decide))

/-- Every range of `xs` lies apart from every range of `ks`. -/
theorem not_inClass_of_disjoint (xs ks : List (Char × Char))
    (h : (xs.all fun r => ks.all fun k => decide (r.2 < k.1) || decide (k.2 < r.1)) = true)
    (c : Char) (hc : inClass xs c = true) : inClass ks c = false := by
  rw [Bool.eq_false_iff]
  intro hk
  simp only [inClass, List.any_eq_true, Bool.and_eq_true, decide_eq_true_eq] at hc hk
  simp only [List.all_eq_true, Bool.or_eq_true, decide_eq_true_eq] at h
  obtain ⟨r, hr, h1, h2⟩ := hc
  obtain ⟨k, hk, h3, h4⟩ := hk
  rcases h r hr k hk with h5 | h5
  · exact absurd (Char.le_trans h3 h2) (Char.not_le.2 h5)
  · exact absurd (Char.le_trans h1 h4) (Char.not_le.2 h5)

set_option maxRecDepth 100000 in
/-- C5: the repository of an accepted reference is not empty, has only characters of
`[-a-z0-9._/]`, so no uppercase letter, and starts and ends with a character of
`[a-z0-9]`, so with no separator; the inputs with an empty repository or an uppercase
letter in the repository listed by the property are rejected. -/
theorem imageSplit_repository_shape :
    (∀ s g r t d : String, imageSplit s = (g, r, t, d, none) →
      r ≠ "" ∧
      (∀ c ∈ r.data, inClass repoChars c = true ∧ inClass [('A', 'Z')] c = false) ∧
      (∃ c w, r.data = c :: w ∧ inClass [('a', 'z'), ('0', '9')] c = true) ∧
      (∃ w c, r.data = w ++ [c] ∧ inClass [('a', 'z'), ('0', '9')] c = true)) ∧
    imageSplit "" = ("", "", "", "", some "failed to parse ref ") ∧
    imageSplit "Foo" = ("", "", "", "", some "failed to parse ref Foo") ∧
    imageSplit "foo/Bar" = ("", "", "", "", some "failed to parse ref foo/Bar") ∧
    imageSplit "Foo/Bar:tag" = ("", "", "", "", some "failed to parse ref Foo/Bar:tag") ∧
    imageSplit "localhost:5000/" =
      ("", "", "", "", some "failed to parse ref localhost:5000/") := by
  refine ⟨?_, by decide, by decide, by decide, by decide, by decide⟩
  intro s g r t d h
  obtain ⟨p, hp, _, hres, _⟩ := imageSplit_ok s g r t d h
  have hr : r.data = p.repository := by
    simp only [Parse.result, Prod.mk.injEq] at hres
    rw [← hres.2.1]
  have hL : Lang repoS r.data := hr ▸ hp.2.1
  obtain ⟨c, w, hcw, hc⟩ := repo_first r.data hL
  refine ⟨?_, ?_, ⟨c, w, hcw, hc⟩, repo_last r.data hL⟩
  · intro h0
    rw [h0] at hcw
    simp at hcw
  · intro x hx
    have hx1 := repo_chars r.data hL x hx
    exact ⟨hx1, not_inClass_of_disjoint repoChars _ (by decide) x hx1⟩

set_option maxRecDepth 100000 in
/-- C5, at the accepted reference `localhost:5000/alpine:latest`. -/
theorem imageSplit_repository_shape_witness :
    ("alpine" : String) ≠ "" ∧
    (∀ c ∈ ("alpine" : String).data,
      inClass repoChars c = true ∧ inClass [('A', 'Z')] c = false) ∧
    (∃ c w, ("alpine" : String).data = c :: w ∧ inClass [('a', 'z'), ('0', '9')] c = true) ∧
    (∃ w c, ("alpine" : String).data = w ++ [c] ∧ inClass [('a', 'z'), ('0', '9')] c = true) :=
  imageSplit_repository_shape.1 "localhost:5000/alpine:latest" "localhost:5000" "alpine"
    "latest" "" (by decide)

/-! ## Round trip -/

theorem optStr_ne_empty (o : Option (List Char)) (g : String) (h : optStr o = g)
    (hg : g ≠ "") : o = some g.data := by
  cases o with
  | none => exact absurd h.symm hg
  | some w => rw [← h]; rfl

/-- A registry, a repository and a tag taken from an accepted reference and put together
as `registry/repository:tag` are split into the same three parts. -/
theorem imageSplit_render_registry_tag (s g r t d : String)
    (h : imageSplit s = (g, r, t, d, none)) (hg : g ≠ "") (ht : t ≠ "") :
    imageSplit (g ++ "/" ++ r ++ ":" ++ t) = (g, r, t, "", none) := by
  obtain ⟨p, hp, _, hres, _⟩ := imageSplit_ok s g r t d h
  simp only [Parse.result, Prod.mk.injEq] at hres
  obtain ⟨h1, h2, h3, _⟩ := hres
  have hreg := optStr_ne_empty p.registry g h1 hg
  have htag := optStr_ne_empty p.tag t h3 ht
  have hrepo : p.repository = r.data := by rw [← h2]
  have hv : (⟨some g.data, r.data, some t.data, none⟩ : Parse).Valid := by
    obtain ⟨v1, v2, v3, _⟩ := hp
    rw [hreg] at v1
    rw [hrepo] at v2
    rw [htag] at v3
    exact ⟨v1, v2, v3, trivial⟩
  rw [imageSplit_registry _ ⟨some g.data, r.data, some t.data, none⟩ hv rfl
    (by simp [String.data_append, Parse.render, Parse.tail, regPart, withSep])]
  rfl

set_option maxRecDepth 100000 in
/-- C6, as stated, fails: `alpine` is accepted with an empty registry and an empty tag, and
the text `/alpine:` put together from its parts is rejected. -/
theorem roundtrip_counterexample :
    imageSplit "alpine" = ("", "alpine", "", "", none) ∧
    imageSplit ("" ++ "/" ++ "alpine" ++ ":" ++ "") =
      ("", "", "", "", some "failed to parse ref /alpine:") ∧
    ¬ (∀ s g r t d : String, imageSplit s = (g, r, t, d, none) →
        ∃ d', imageSplit (g ++ "/" ++ r ++ ":" ++ t) = (g, r, t, d', none)) := by
  have h1 : imageSplit "alpine" = ("", "alpine", "", "", none) := by decide
  have h2 : imageSplit ("" ++ "/" ++ "alpine" ++ ":" ++ "") =
      ("", "", "", "", some "failed to parse ref /alpine:") := by decide
  refine ⟨h1, h2, ?_⟩
  intro hall
  obtain ⟨d', hd⟩ := hall "alpine" "" "alpine" "" "" h1
  rw [h2] at hd
  simp at hd

/-- C6, amended: for every accepted reference whose registry and tag are not empty, the
text `registry/repository:tag` put together from its parts is accepted and split into
that registry, that repository and that tag, with an empty digest. -/
theorem roundtrip_registry_tag (s g r t d : String)
    (h : imageSplit s = (g, r, t, d, none)) (hg : g ≠ "") (ht : t ≠ "") :
    imageSplit (g ++ "/" ++ r ++ ":" ++ t) = (g, r, t, "", none) :=
  imageSplit_render_registry_tag s g r t d h hg ht

set_option maxRecDepth 100000 in
/-- C6, amended, at a reference with a digest. -/
theorem roundtrip_registry_tag_witness :
    imageSplit "a.b/c:t" = ("a.b", "c", "t", "", none) :=
  roundtrip_registry_tag "a.b/c:t@sha256:0123456789abcdef0123456789abcdef" "a.b" "c" "t"
    "sha256:0123456789abcdef0123456789abcdef" (by decide) (by decide) (by decide)

/-! ## References with a digest -/

theorem Lang_star_cls (rs : List (Char × Char)) (w : List Char)
    (h : ∀ c ∈ w, inClass rs c = true) : Lang (Regex.star (Regex.cls rs)) w := by
  refine ⟨w.map (fun c => [c]), ?_, ?_⟩
  · induction w with
    | nil => rfl
    | cons a w ih =>
      simp only [List.map_cons, List.flatten_cons, List.singleton_append]
      rw [← ih (fun c hc => h c (List.mem_cons_of_mem _ hc))]
  · intro u hu
    obtain ⟨c, hc, rfl⟩ := List.mem_map.1 hu
    exact ⟨c, rfl, h c hc⟩

theorem Lang_times_cls (rs : List (Char × Char)) : ∀ (k : Nat) (w : List Char),
    w.length = k → (∀ c ∈ w, inClass rs c = true) → Lang (Regex.times k (Regex.cls rs)) w := by
  intro k
  induction k with
  | zero =>
    intro w hl _
    exact List.length_eq_zero.1 hl
  | succ k ih =>
    intro w hl h
    cases w with
    | nil => simp at hl
    | cons a w =>
      refine ⟨[a], w, rfl, ⟨a, rfl, h a (List.mem_cons_self _ _)⟩, ?_⟩
      exact ih w (by simpa using hl) (fun c hc => h c (List.mem_cons_of_mem _ hc))

theorem Lang_atLeast_cls (rs : List (Char × Char)) (k : Nat) (w : List Char)
    (hl : k ≤ w.length) (h : ∀ c ∈ w, inClass rs c = true) :
    Lang (Regex.atLeast k (Regex.cls rs)) w := by
  refine ⟨w.take k, w.drop k, (List.take_append_drop k w).symm, ?_, ?_⟩
  · exact Lang_times_cls rs k _ (by simp [hl]) (fun c hc => h c (List.mem_of_mem_take hc))
  · exact Lang_star_cls rs _ (fun c hc => h c (List.mem_of_mem_drop hc))

/-- The text `sha256:` followed by at least 32 hexadecimal digits is a digest. -/
theorem Lang_digest_sha256 (x : List Char) (hl : 32 ≤ x.length)
    (hx : ∀ c ∈ x, inClass xdigitChars c = true) :
    Lang digestS ("sha256:".data ++ x) := by
  refine ⟨['s'], "ha256:".data ++ x, rfl, ⟨'s', rfl, by decide⟩, "ha256".data, ':' :: x, rfl,
    Lang_star_cls _ _ (by decide), [], ':' :: x, rfl, ⟨[], rfl, by simp⟩, [':'], x, rfl,
    ⟨':', rfl, by decide⟩, Lang_atLeast_cls _ 32 x hl hx⟩

set_option maxRecDepth 100000 in
/-- C7: for every `x` of 64 hexadecimal digits the reference
`myregistry.example.com/foo/bar@sha256:x` is split into the registry
`myregistry.example.com`, the repository `foo/bar`, an empty tag and the digest
`sha256:x`. -/
theorem imageSplit_domain_digest (x : String) (hl : x.length = 64)
    (hx : ∀ c ∈ x.data, inClass xdigitChars c = true) :
    imageSplit ("myregistry.example.com/foo/bar@sha256:" ++ x) =
      ("myregistry.example.com", "foo/bar", "", "sha256:" ++ x, none) := by
  have hlen : 32 ≤ x.data.length := by
    have : x.data.length = 64 := hl
    omega
  have hd := Lang_digest_sha256 x.data hlen hx
  have hg : Lang registryS "myregistry.example.com".data :=
    (fullMatch_iff registryS registryS_plain _).1 (by decide)
  have hr : Lang repoS "foo/bar".data := (fullMatch_iff repoS repoS_plain _).1 (by decide)
  rw [imageSplit_registry _
    ⟨some "myregistry.example.com".data, "foo/bar".data, none, some ("sha256:".data ++ x.data)⟩
    ⟨hg, hr, trivial, hd⟩ rfl
    (by simp [String.data_append, Parse.render, Parse.tail, regPart, withSep])]
  have hname : String.mk ("sha256:".data ++ x.data) = "sha256:" ++ x := by
    apply String.ext
    simp [String.data_append]
  simp only [Parse.result, optStr_some, optStr_none, hname]

/-- C7, at a digest of 64 hexadecimal digits. -/
theorem imageSplit_domain_digest_witness :
    imageSplit ("myregistry.example.com/foo/bar@sha256:" ++
        "0123456789abcdef0123456789ABCDEF0123456789abcdef0123456789ABCDEF") =
      ("myregistry.example.com", "foo/bar", "",
        "sha256:" ++ "0123456789abcdef0123456789ABCDEF0123456789abcdef0123456789ABCDEF",
        none) :=
  imageSplit_domain_digest "0123456789abcdef0123456789ABCDEF0123456789abcdef0123456789ABCDEF"
    (by decide) (by decide)

/-! ## Requests of the registry client -/

/-- The polling request of `ImageExists` for an accepted reference. -/
theorem ImageExists_polls (w : HTTPStrategy → Option String) (ref g r t d : String)
    (h : imageSplit ref = (g, r, t, d, none)) :
    (ImageExists w ref).polls =
      [{ Path := if d ≠ "" then "/v2/" ++ r ++ "/manifests/" ++ d
          else "/v2/" ++ r ++ "/manifests/" ++ (if t = "" ∧ d = "" then "latest" else t)
         Method := MethodHead
         ForceIPv4LocalHost := true
         StatusCodeMatcher := fun statusCode => statusCode == StatusOK
         ResponseHeadersMatcher := fun headers => headers.Get "Docker-Content-Digest" != "" }] := by
  simp only [ImageExists, h, ne_eq, not_true_eq_false, if_false, ForHTTP,
    HTTPStrategy.WithMethod, HTTPStrategy.WithForcedIPv4LocalHost,
    HTTPStrategy.WithStatusCodeMatcher, HTTPStrategy.WithResponseHeadersMatcher]

/-- The polling request of `DeleteImage` for an accepted reference. -/
theorem DeleteImage_polls (w : HTTPStrategy → Option String) (ref g r t d : String)
    (h : imageSplit ref = (g, r, t, d, none)) :
    (DeleteImage w ref).polls =
      [{ Path := if d ≠ "" then "/v2/" ++ r ++ "/manifests/" ++ d
          else "/v2/" ++ r ++ "/manifests/" ++ (if t = "" ∧ d = "" then "latest" else t)
         Method := MethodDelete
         ForceIPv4LocalHost := false
         StatusCodeMatcher := fun statusCode => statusCode == StatusAccepted
         ResponseHeadersMatcher := fun _ => true }] := by
  simp only [DeleteImage, h, ne_eq, not_true_eq_false, if_false, ForHTTP,
    HTTPStrategy.WithMethod, HTTPStrategy.WithStatusCodeMatcher]

/-- C2: for a reference accepted with a digest that is not empty, with or without a tag,
the path requested by `ImageExists` and by `DeleteImage` is
`/v2/repository/manifests/digest`. -/
theorem endpoint_digest (w : HTTPStrategy → Option String) (ref g r t d : String)
    (h : imageSplit ref = (g, r, t, d, none)) (hd : d ≠ "") :
    (ImageExists w ref).polls.map HTTPStrategy.Path = ["/v2/" ++ r ++ "/manifests/" ++ d] ∧
    (DeleteImage w ref).polls.map HTTPStrategy.Path = ["/v2/" ++ r ++ "/manifests/" ++ d] := by
  rw [ImageExists_polls w ref g r t d h, DeleteImage_polls w ref g r t d h]
  simp [hd]

set_option maxRecDepth 100000 in
/-- C2, at a reference with a tag and a digest. -/
theorem endpoint_digest_witness :
    (ImageExists (fun _ => none)
        "foo/bar:tag@sha256:0123456789abcdef0123456789abcdef").polls.map HTTPStrategy.Path =
      ["/v2/" ++ "foo/bar" ++ "/manifests/" ++ "sha256:0123456789abcdef0123456789abcdef"] ∧
    (DeleteImage (fun _ => none)
        "foo/bar:tag@sha256:0123456789abcdef0123456789abcdef").polls.map HTTPStrategy.Path =
      ["/v2/" ++ "foo/bar" ++ "/manifests/" ++ "sha256:0123456789abcdef0123456789abcdef"] :=
  endpoint_digest (fun _ => none) "foo/bar:tag@sha256:0123456789abcdef0123456789abcdef" ""
    "foo/bar" "tag" "sha256:0123456789abcdef0123456789abcdef" (by decide) (by decide)

/-- C3: for a reference accepted with an empty digest, the path requested by `ImageExists`
and by `DeleteImage` is `/v2/repository/manifests/tag` when the tag is not empty and
`/v2/repository/manifests/latest` when it is. -/
theorem endpoint_tag (w : HTTPStrategy → Option String) (ref g r t : String)
    (h : imageSplit ref = (g, r, t, "", none)) :
    (t ≠ "" →
      (ImageExists w ref).polls.map HTTPStrategy.Path = ["/v2/" ++ r ++ "/manifests/" ++ t] ∧
      (DeleteImage w ref).polls.map HTTPStrategy.Path = ["/v2/" ++ r ++ "/manifests/" ++ t]) ∧
    (t = "" →
      (ImageExists w ref).polls.map HTTPStrategy.Path =
        ["/v2/" ++ r ++ "/manifests/" ++ "latest"] ∧
      (DeleteImage w ref).polls.map HTTPStrategy.Path =
        ["/v2/" ++ r ++ "/manifests/" ++ "latest"]) := by
  rw [ImageExists_polls w ref g r t "" h, DeleteImage_polls w ref g r t "" h]
  constructor
  · intro ht
    simp [ht]
  · intro ht
    simp [ht]

set_option maxRecDepth 100000 in
/-- C3, at a reference without tag and digest. -/
theorem endpoint_tag_witness :
    (ImageExists (fun _ => none) "localhost:5000/alpine").polls.map HTTPStrategy.Path =
      ["/v2/" ++ "alpine" ++ "/manifests/" ++ "latest"] ∧
    (DeleteImage (fun _ => none) "localhost:5000/alpine").polls.map HTTPStrategy.Path =
      ["/v2/" ++ "alpine" ++ "/manifests/" ++ "latest"] :=
  (endpoint_tag (fun _ => none) "localhost:5000/alpine" "localhost:5000" "alpine" ""
    (by decide)).2 rfl

/-- C8: `PushImage` returns the error `not implemented` for every reference and every
behaviour of the container, and issues no request. -/
theorem PushImage_not_implemented (w : HTTPStrategy → Option String) (ref : String) :
    (PushImage w ref).err = some "not implemented" ∧ (PushImage w ref).err ≠ none ∧
      (PushImage w ref).polls = [] :=
  ⟨rfl, by simp [PushImage], rfl⟩

theorem Header_Get_ne_empty (hd : Header) (key : String) :
    hd.Get key ≠ "" ↔ ∃ v vs, hd.entries.lookup key = some (v :: vs) ∧ v ≠ "" := by
  unfold Header.Get
  constructor
  · intro h
    split at h
    · rename_i v vs heq
      exact ⟨v, vs, heq, h⟩
    · exact absurd rfl h
  · rintro ⟨v, vs, heq, hv⟩
    rw [heq]
    exact hv

/-- C9: for an accepted reference `ImageExists` issues one request, with method HEAD, that
succeeds for a response exactly when the status code is 200 and the first value of the
header `Docker-Content-Digest` is there and not empty; a response without the header does
not succeed, nor does a response with another status code. -/
theorem ImageExists_request (w : HTTPStrategy → Option String) (ref g r t d : String)
    (h : imageSplit ref = (g, r, t, d, none)) :
    ∃ ws, (ImageExists w ref).polls = [ws] ∧ ws.Method = "HEAD" ∧
      (∀ resp : Response, ws.succeeds resp = true ↔
        resp.StatusCode = 200 ∧
          ∃ v vs, resp.Header.entries.lookup "Docker-Content-Digest" = some (v :: vs) ∧
            v ≠ "") ∧
      (∀ resp : Response, resp.Header.entries.lookup "Docker-Content-Digest" = none →
        ws.succeeds resp = false) ∧
      (∀ resp : Response, resp.StatusCode ≠ 200 → ws.succeeds resp = false) := by
  refine ⟨_, ImageExists_polls w ref g r t d h, rfl, ?_, ?_, ?_⟩
  · intro resp
    simp only [HTTPStrategy.succeeds, Bool.and_eq_true, beq_iff_eq, bne_iff_ne, StatusOK,
      Header_Get_ne_empty]
  · intro resp hnone
    simp [HTTPStrategy.succeeds, Header.Get, hnone]
  · intro resp hne
    simp [HTTPStrategy.succeeds, StatusOK, hne]

set_option maxRecDepth 100000 in
/-- C9, at the reference `localhost:5000/alpine:latest`. -/
theorem ImageExists_request_witness :
    ∃ ws, (ImageExists (fun _ => none) "localhost:5000/alpine:latest").polls = [ws] ∧
      ws.Method = "HEAD" ∧
      (∀ resp : Response, ws.succeeds resp = true ↔
        resp.StatusCode = 200 ∧
          ∃ v vs, resp.Header.entries.lookup "Docker-Content-Digest" = some (v :: vs) ∧
            v ≠ "") ∧
      (∀ resp : Response, resp.Header.entries.lookup "Docker-Content-Digest" = none →
        ws.succeeds resp = false) ∧
      (∀ resp : Response, resp.StatusCode ≠ 200 → ws.succeeds resp = false) :=
  ImageExists_request (fun _ => none) "localhost:5000/alpine:latest" "localhost:5000" "alpine"
    "latest" "" (by decide)

/-- C10: for an accepted reference `DeleteImage` issues one request, with method DELETE,
that succeeds for a response exactly when the status code is 202; the status codes 200
and 204 do not succeed. -/
theorem DeleteImage_request (w : HTTPStrategy → Option String) (ref g r t d : String)
    (h : imageSplit ref = (g, r, t, d, none)) :
    ∃ ws, (DeleteImage w ref).polls = [ws] ∧ ws.Method = "DELETE" ∧
      (∀ resp : Response, ws.succeeds resp = true ↔ resp.StatusCode = 202) ∧
      (∀ hd : Header, ws.succeeds ⟨200, hd⟩ = false) ∧
      (∀ hd : Header, ws.succeeds ⟨204, hd⟩ = false) := by
  refine ⟨_, DeleteImage_polls w ref g r t d h, rfl, ?_, ?_, ?_⟩
  · intro resp
    simp only [HTTPStrategy.succeeds, Bool.and_true, beq_iff_eq, StatusAccepted]
  · intro hd
    simp [HTTPStrategy.succeeds, StatusAccepted]
  · intro hd
    simp [HTTPStrategy.succeeds, StatusAccepted]

set_option maxRecDepth 100000 in
/-- C10, at the reference `localhost:5000/alpine:latest`. -/
theorem DeleteImage_request_witness :
    ∃ ws, (DeleteImage (fun _ => none) "localhost:5000/alpine:latest").polls = [ws] ∧
      ws.Method = "DELETE" ∧
      (∀ resp : Response, ws.succeeds resp = true ↔ resp.StatusCode = 202) ∧
      (∀ hd : Header, ws.succeeds ⟨200, hd⟩ = false) ∧
      (∀ hd : Header, ws.succeeds ⟨204, hd⟩ = false) :=
  DeleteImage_request (fun _ => none) "localhost:5000/alpine:latest" "localhost:5000" "alpine"
    "latest" "" (by decide)

/-! ## Rejected references and the requests of the client -/

/-- C11: for a reference that `imageSplit` rejects, `ImageExists` and `DeleteImage` return
the error of `imageSplit` and issue no request; for a reference that `imageSplit`
accepts, each of them issues exactly one polling request. -/
theorem parse_error_no_request (w : HTTPStrategy → Option String) (ref : String) :
    (∀ g r t d e, imageSplit ref = (g, r, t, d, some e) →
      (ImageExists w ref).err = some e ∧ (ImageExists w ref).polls = [] ∧
      (DeleteImage w ref).err = some e ∧ (DeleteImage w ref).polls = []) ∧
    (∀ g r t d, imageSplit ref = (g, r, t, d, none) →
      (ImageExists w ref).polls.length = 1 ∧ (DeleteImage w ref).polls.length = 1) := by
  constructor
  · intro g r t d e h
    simp [ImageExists, DeleteImage, h]
  · intro g r t d h
    rw [ImageExists_polls w ref g r t d h, DeleteImage_polls w ref g r t d h]
    exact ⟨rfl, rfl⟩

set_option maxRecDepth 100000 in
/-- C11, at the rejected reference `Foo/Bar:tag`. -/
theorem parse_error_no_request_witness :
    (ImageExists (fun _ => none) "Foo/Bar:tag").err = some "failed to parse ref Foo/Bar:tag" ∧
    (ImageExists (fun _ => none) "Foo/Bar:tag").polls = [] ∧
    (DeleteImage (fun _ => none) "Foo/Bar:tag").err = some "failed to parse ref Foo/Bar:tag" ∧
    (DeleteImage (fun _ => none) "Foo/Bar:tag").polls = [] :=
  (parse_error_no_request (fun _ => none) "Foo/Bar:tag").1 "" "" "" ""
    "failed to parse ref Foo/Bar:tag" (by decide)

set_option maxRecDepth 100000 in
/-- C14, evaluated: for every accepted reference the methods of the requests of
`DeleteImage` are DELETE alone, with no HEAD before it, and for
`localhost:5000/alpine:latest` the one request is a DELETE of
`/v2/alpine/manifests/latest`, the tag of the reference and not a digest taken from a
response. -/
theorem DeleteImage_methods :
    (∀ (w : HTTPStrategy → Option String) (ref g r t d : String),
      imageSplit ref = (g, r, t, d, none) →
      (DeleteImage w ref).polls.map HTTPStrategy.Method = ["DELETE"]) ∧
    (DeleteImage (fun _ => none) "localhost:5000/alpine:latest").polls.map
      HTTPStrategy.Method = ["DELETE"] ∧
    (DeleteImage (fun _ => none) "localhost:5000/alpine:latest").polls.map
      HTTPStrategy.Path = ["/v2/alpine/manifests/latest"] := by
  have key : ∀ (w : HTTPStrategy → Option String) (ref g r t d : String),
      imageSplit ref = (g, r, t, d, none) →
      (DeleteImage w ref).polls.map HTTPStrategy.Method = ["DELETE"] := by
    intro w ref g r t d h
    rw [DeleteImage_polls w ref g r t d h]
    rfl
  have h : imageSplit "localhost:5000/alpine:latest" =
      ("localhost:5000", "alpine", "latest", "", none) := by decide
  refine ⟨key, key _ _ _ _ _ _ h, ?_⟩
  rw [DeleteImage_polls _ _ _ _ _ _ h]
  decide

/-! ## Restricted round trip -/

set_option maxRecDepth 100000 in
/-- C19: for every accepted reference whose registry and tag are not empty, the text
`registry/repository:tag` is split into that registry, repository and tag with an empty
digest; this holds where the registry is also a repository segment: `a.b/c:t` has a
reading with the registry `a.b` and a reading without registry, and is split with the
registry `a.b`. -/
theorem roundtrip_restricted :
    (∀ s g r t d : String, imageSplit s = (g, r, t, d, none) → g ≠ "" → t ≠ "" →
      imageSplit (g ++ "/" ++ r ++ ":" ++ t) = (g, r, t, "", none)) ∧
    imageSplit "a.b/c:t" = ("a.b", "c", "t", "", none) ∧
    (∃ p q : Parse, p.Valid ∧ q.Valid ∧ p.render = "a.b/c:t".data ∧
      q.render = "a.b/c:t".data ∧ p.registry = some "a.b".data ∧ q.registry = none) := by
  refine ⟨imageSplit_render_registry_tag, by decide,
    ⟨some "a.b".data, "c".data, some "t".data, none⟩,
    ⟨none, "a.b/c".data, some "t".data, none⟩, ?_, ?_, rfl, rfl, rfl, rfl⟩
  · exact ⟨(fullMatch_iff registryS registryS_plain _).1 (by decide),
      (fullMatch_iff repoS repoS_plain _).1 (by decide),
      (fullMatch_iff tagS tagS_plain _).1 (by decide), trivial⟩
  · exact ⟨trivial, (fullMatch_iff repoS repoS_plain _).1 (by decide),
      (fullMatch_iff tagS tagS_plain _).1 (by decide), trivial⟩

set_option maxRecDepth 100000 in
/-- C19, at a reference with a port and a digest. -/
theorem roundtrip_restricted_witness :
    imageSplit ("localhost:5000" ++ "/" ++ "foo/bar" ++ ":" ++ "v1") =
      ("localhost:5000", "foo/bar", "v1", "", none) :=
  roundtrip_restricted.1 "localhost:5000/foo/bar:v1@sha256:0123456789abcdef0123456789abcdef"
    "localhost:5000" "foo/bar" "v1" "sha256:0123456789abcdef0123456789abcdef"
    (by decide) (by decide) (by decide)

/-! ## Parsing loses nothing -/

theorem Lang_ne_nil (re : Regex) (hn : re.nullable = false) (w : List Char)
    (h : Lang re w) : w ≠ [] := by
  rcases Lang_first re w h with ⟨_, h1⟩ | ⟨c, w', rfl, _⟩
  · rw [hn] at h1
    exact absurd h1 (by decide)
  · simp

theorem mk_ne_empty (w : List Char) (h : w ≠ []) : String.mk w ≠ "" := by
  intro h0
  apply h
  have := congrArg String.data h0
  simpa using this

theorem registryS_not_nullable : registryS.nullable = false := by decide

theorem repoS_not_nullable : repoS.nullable = false := by decide

theorem tagS_not_nullable : tagS.nullable = false := rfl

theorem digestS_not_nullable : digestS.nullable = false := rfl

/-- The strings of an optional part: not empty when the part is there. -/
theorem optStr_eq_empty_iff (re : Regex) (hn : re.nullable = false) (o : Option (List Char))
    (h : OptLang re o) : optStr o = "" ↔ o = none := by
  cases o with
  | none => exact ⟨fun _ => rfl, fun _ => rfl⟩
  | some w =>
    constructor
    · intro h0
      exact absurd h0 (mk_ne_empty w (Lang_ne_nil re hn w h))
    · intro h0
      simp at h0

/-- The text of a valid decomposition is the text put together from its results. -/
theorem joinRef_result (p : Parse) (hp : p.Valid) :
    joinRef (optStr p.registry) (String.mk p.repository) (optStr p.tag) (optStr p.digest) =
      String.mk p.render := by
  obtain ⟨hg, _, ht, hd⟩ := hp
  have eg := optStr_eq_empty_iff registryS registryS_not_nullable p.registry hg
  have et := optStr_eq_empty_iff tagS tagS_not_nullable p.tag ht
  have ed := optStr_eq_empty_iff digestS digestS_not_nullable p.digest hd
  rcases p with ⟨g, r, t, d⟩
  simp only [joinRef, ne_eq, eg, et, ed]
  apply String.ext
  cases g <;> cases t <;> cases d <;>
    simp [String.data_append, Parse.render, Parse.tail, regPart, withSep, optStr]

/-- C20: an accepted input is the text put together from its four results, each part with
its separator and left out when the result is empty; a result is empty exactly when the
part is absent from the decomposition of the input, the repository is never empty, and
no other input is split into the same four results. -/
theorem imageSplit_lossless (s g r t d : String) (h : imageSplit s = (g, r, t, d, none)) :
    s = joinRef g r t d ∧ r ≠ "" ∧
    (∃ p : Parse, p.Valid ∧ p.render = s.data ∧ (g = "" ↔ p.registry = none) ∧
      (t = "" ↔ p.tag = none) ∧ (d = "" ↔ p.digest = none)) ∧
    (∀ s', imageSplit s' = (g, r, t, d, none) → s' = s) := by
  have key : ∀ x : String, imageSplit x = (g, r, t, d, none) →
      x = joinRef g r t d ∧
        ∃ p : Parse, p.Valid ∧ p.render = x.data ∧ p.result = (g, r, t, d, none) := by
    intro x hx
    obtain ⟨p, hp, hs, hres, _⟩ := imageSplit_ok x g r t d hx
    refine ⟨?_, p, hp, hs, hres⟩
    have hj := joinRef_result p hp
    simp only [Parse.result, Prod.mk.injEq] at hres
    obtain ⟨h1, h2, h3, h4, _⟩ := hres
    rw [h1, h2, h3, h4] at hj
    rw [hj, hs]
  obtain ⟨hs, p, hp, hps, hres⟩ := key s h
  simp only [Parse.result, Prod.mk.injEq] at hres
  obtain ⟨h1, h2, h3, h4, _⟩ := hres
  refine ⟨hs, ?_, ⟨p, hp, hps, ?_, ?_, ?_⟩, ?_⟩
  · rw [← h2]
    exact mk_ne_empty _ (Lang_ne_nil repoS repoS_not_nullable _ hp.2.1)
  · rw [← h1]
    exact optStr_eq_empty_iff registryS registryS_not_nullable _ hp.1
  · rw [← h3]
    exact optStr_eq_empty_iff tagS tagS_not_nullable _ hp.2.2.1
  · rw [← h4]
    exact optStr_eq_empty_iff digestS digestS_not_nullable _ hp.2.2.2
  · intro s' hs'
    rw [(key s' hs').1, hs]

set_option maxRecDepth 100000 in
/-- C20, at a reference with a registry and a digest and without tag. -/
theorem imageSplit_lossless_witness :
    ("a.b/c@sha256:0123456789abcdef0123456789abcdef" : String) =
      joinRef "a.b" "c" "" "sha256:0123456789abcdef0123456789abcdef" :=
  (imageSplit_lossless "a.b/c@sha256:0123456789abcdef0123456789abcdef" "a.b" "c" ""
    "sha256:0123456789abcdef0123456789abcdef" (by decide)).1


/-! ## The length of a tag -/

theorem Lang_upto_length (rs : List (Char × Char)) : ∀ (k : Nat) (w : List Char),
    Lang (Regex.upto k (Regex.cls rs)) w → w.length ≤ k := by
  intro k
  induction k with
  | zero =>
    intro w h
    have : w = [] := h
    simp [this]
  | succ k ih =>
    intro w h
    rcases h with ⟨u, v, rfl, ⟨c, rfl, _⟩, hv⟩ | h
    · have := ih v hv
      simp only [List.length_append, List.length_singleton]
      omega
    · have : w = [] := h
      simp [this]

theorem Lang_upto_cls (rs : List (Char × Char)) : ∀ (k : Nat) (w : List Char),
    w.length ≤ k → (∀ c ∈ w, inClass rs c = true) → Lang (Regex.upto k (Regex.cls rs)) w := by
  intro k
  induction k with
  | zero =>
    intro w hl _
    exact List.length_eq_zero.1 (Nat.le_zero.1 hl)
  | succ k ih =>
    intro w hl h
    cases w with
    | nil => exact Or.inr rfl
    | cons a w =>
      refine Or.inl ⟨[a], w, rfl, ⟨a, rfl, h a (List.mem_cons_self _ _)⟩, ?_⟩
      exact ih w (by simp only [List.length_cons] at hl; omega)
        (fun c hc => h c (List.mem_cons_of_mem _ hc))

/-- A tag has between 1 and 128 characters and starts with a character of
`[a-zA-Z0-9_]`. -/
theorem tag_shape (t : List Char) (h : Lang tagS t) :
    1 ≤ t.length ∧ t.length ≤ 128 ∧
      ∃ c w, t = c :: w ∧ inClass [('a', 'z'), ('A', 'Z'), ('0', '9'), ('_', '_')] c = true := by
  obtain ⟨u, v, rfl, ⟨c, rfl, hc⟩, hv⟩ := h
  have := Lang_upto_length _ 127 v hv
  refine ⟨by simp, ?_, c, v, rfl, hc⟩
  simp only [List.length_append, List.length_singleton]
  omega

/-- A word of at most 128 characters of `[a-zA-Z0-9._-]` that starts with a character of
`[a-zA-Z0-9_]` is a tag. -/
theorem Lang_tag (c : Char) (w : List Char)
    (hc : inClass [('a', 'z'), ('A', 'Z'), ('0', '9'), ('_', '_')] c = true)
    (hl : w.length ≤ 127) (hw : ∀ x ∈ w, inClass tagChars x = true) : Lang tagS (c :: w) :=
  ⟨[c], w, rfl, ⟨c, rfl, hc⟩, Lang_upto_cls _ 127 w hl hw⟩

/-- A registry and its `/` at the start of a text that has no `/` after the word `r` lie
inside `r`. -/
theorem registry_inside (g x r y : List Char) (hy : '/' ∉ y) (h : g ++ '/' :: x = r ++ y) :
    ∃ r', r = g ++ '/' :: r' ∧ x = r' ++ y := by
  rcases List.append_eq_append_iff.1 h with ⟨a, ha, hb⟩ | ⟨a, ha, hb⟩
  · cases a with
    | nil =>
      exfalso
      apply hy
      rw [List.nil_append] at hb
      rw [← hb]
      exact List.mem_cons_self _ _
    | cons b a =>
      simp only [List.cons_append, List.cons.injEq] at hb
      obtain ⟨rfl, hx⟩ := hb
      exact ⟨a, ha, hx⟩
  · exfalso
    apply hy
    rw [hb]
    simp

theorem withSep_head (t d : Option (List Char)) :
    ∀ c ∈ (withSep ':' t ++ withSep '@' d).head?, c = ':' ∨ c = '@' := by
  intro c hc
  cases t <;> cases d <;> simp [withSep] at hc <;> subst hc <;> simp

/-- In a valid decomposition of the text `r:t`, where `r` has the characters of a
repository and `t` has none of `/`, `:` and `@`, the tag is `t` and there is no digest. -/
theorem render_repo_tag (p : Parse) (hp : p.Valid) (r t : List Char)
    (hr : ∀ c ∈ r, inClass repoChars c = true)
    (ht : ∀ c ∈ t, c ≠ '/' ∧ c ≠ ':' ∧ c ≠ '@') (h : p.render = r ++ ':' :: t) :
    p.tag = some t ∧ p.digest = none := by
  have hsepr : ∀ v : List Char, (∀ c ∈ v, inClass repoChars c = true) →
      ∀ c ∈ v, ¬ (c = ':' ∨ c = '@') := by
    intro v hv c hc hcc
    have h1 := hv c hc
    rcases hcc with rfl | rfl
    · exact absurd h1 (by decide)
    · exact absurd h1 (by decide)
  have htail : ∃ v, (∀ c ∈ v, inClass repoChars c = true) ∧ p.tail = v ++ ':' :: t := by
    rcases p with ⟨g, pr, pt, pd⟩
    cases g with
    | none => exact ⟨r, hr, by simpa [Parse.render, regPart] using h⟩
    | some g =>
      simp only [Parse.render, regPart, List.append_assoc, List.singleton_append] at h
      have hy : '/' ∉ ':' :: t := by
        intro hm
        rcases List.mem_cons.1 hm with h0 | h0
        · exact absurd h0 (by decide)
        · exact (ht _ h0).1 rfl
      obtain ⟨r', hr', hx⟩ := registry_inside g _ r _ hy h
      refine ⟨r', fun c hc => hr c ?_, hx⟩
      rw [hr']
      simp [hc]
  obtain ⟨v, hv, hvt⟩ := htail
  have key := split_unique (fun c => c = ':' ∨ c = '@') p.repository v
    (withSep ':' p.tag ++ withSep '@' p.digest) (':' :: t)
    (hsepr _ (repo_chars _ hp.2.1)) (hsepr v hv)
    (withSep_head p.tag p.digest) (by simp) hvt
  have hX := key.2
  cases htag : p.tag with
  | none =>
    rw [htag] at hX
    cases hd : p.digest <;> rw [hd] at hX <;> simp [withSep] at hX
  | some w =>
    rw [htag] at hX
    cases hd : p.digest with
    | none =>
      rw [hd] at hX
      simp only [withSep, List.append_nil, List.cons.injEq, true_and] at hX
      exact ⟨by rw [hX], rfl⟩
    | some dd =>
      exfalso
      rw [hd] at hX
      simp only [withSep, List.cons_append, List.cons.injEq, true_and] at hX
      exact (ht '@' (by rw [← hX]; simp)).2.2 rfl

theorem replicate_a_chars (k : Nat) :
    (∀ c ∈ List.replicate k 'a', inClass tagChars c = true) ∧
      ∀ c ∈ List.replicate k 'a', c ≠ '/' ∧ c ≠ ':' ∧ c ≠ '@' := by
  constructor
  · intro c hc
    rw [(List.mem_replicate.1 hc).2]
    decide
  · intro c hc
    rw [(List.mem_replicate.1 hc).2]
    decide

/-- C18: the tag of an accepted reference is empty or has between 1 and 128 characters,
all of `[a-zA-Z0-9._-]`, the first one not `.` and not `-`; after a valid repository a
tag of 128 letters `a` is accepted, as the tag and with an empty digest, and a tag of
129 letters `a` is rejected. -/
theorem tag_length_limit :
    (∀ s g r t d : String, imageSplit s = (g, r, t, d, none) →
      t = "" ∨ (1 ≤ t.length ∧ t.length ≤ 128 ∧ (∀ c ∈ t.data, inClass tagChars c = true) ∧
        ∃ c w, t.data = c :: w ∧ c ≠ '.' ∧ c ≠ '-')) ∧
    (∀ r : String, Lang repoS r.data →
      (∃ g r', imageSplit (r ++ ":" ++ String.mk (List.replicate 128 'a')) =
        (g, r', String.mk (List.replicate 128 'a'), "", none)) ∧
      imageSplit (r ++ ":" ++ String.mk (List.replicate 129 'a')) =
        ("", "", "", "",
          some ("failed to parse ref " ++ (r ++ ":" ++ String.mk (List.replicate 129 'a'))))) := by
  constructor
  · intro s g r t d h
    obtain ⟨p, hp, _, hres, _⟩ := imageSplit_ok s g r t d h
    simp only [Parse.result, Prod.mk.injEq] at hres
    obtain ⟨_, _, h3, _⟩ := hres
    cases htag : p.tag with
    | none =>
      left
      rw [← h3, htag]
      rfl
    | some w =>
      right
      have hL : Lang tagS w := by
        have := hp.2.2.1
        rw [htag] at this
        exact this
      have ht : t.data = w := by rw [← h3, htag]; rfl
      obtain ⟨h1, h2, c, w', hcw, hc⟩ := tag_shape w hL
      have hlen : t.length = w.length := by rw [← ht]; rfl
      refine ⟨by omega, by omega, by rw [ht]; exact tag_chars w hL, c, w', by rw [ht, hcw], ?_, ?_⟩
      · rintro rfl
        exact absurd hc (by decide)
      · rintro rfl
        exact absurd hc (by decide)
  · intro r hr
    have hdata : ∀ k, (r ++ ":" ++ String.mk (List.replicate k 'a')).data =
        r.data ++ ':' :: List.replicate k 'a' := by
      intro k
      simp [String.data_append]
    constructor
    · have htag : Lang tagS (List.replicate 128 'a') :=
        Lang_tag 'a' (List.replicate 127 'a') (by decide) (by simp) (replicate_a_chars 127).1
      have hG : RefGrammar (r ++ ":" ++ String.mk (List.replicate 128 'a')).data :=
        ⟨⟨none, r.data, some (List.replicate 128 'a'), none⟩, ⟨trivial, hr, htag, trivial⟩,
          by rw [hdata]; simp [Parse.render, Parse.tail, regPart, withSep]⟩
      obtain ⟨p, hp, hs, hres, _⟩ := imageSplit_accept _ hG
      rw [hdata] at hs
      obtain ⟨h1, h2⟩ := render_repo_tag p hp r.data _ (repo_chars _ hr)
        (replicate_a_chars 128).2 hs
      refine ⟨optStr p.registry, String.mk p.repository, ?_⟩
      rw [hres, Parse.result, h1, h2]
      rfl
    · apply imageSplit_reject
      rintro ⟨p, hp, hs⟩
      rw [hdata] at hs
      obtain ⟨h1, _⟩ := render_repo_tag p hp r.data _ (repo_chars _ hr)
        (replicate_a_chars 129).2 hs
      have hL : Lang tagS (List.replicate 129 'a') := by
        have := hp.2.2.1
        rw [h1] at this
        exact this
      have := (tag_shape _ hL).2.1
      simp at this

set_option maxRecDepth 100000 in
/-- C18, at the repository `alpine`. -/
theorem tag_length_limit_witness :
    (∃ g r', imageSplit ("alpine" ++ ":" ++ String.mk (List.replicate 128 'a')) =
      (g, r', String.mk (List.replicate 128 'a'), "", none)) ∧
    imageSplit ("alpine" ++ ":" ++ String.mk (List.replicate 129 'a')) =
      ("", "", "", "",
        some ("failed to parse ref " ++ ("alpine" ++ ":" ++ String.mk (List.replicate 129 'a')))) :=
  tag_length_limit.2 "alpine" ((fullMatch_iff repoS repoS_plain _).1 (by decide))


/-! ## References without registry -/

theorem Lang_mustContain (ks : List (Char × Char)) : ∀ (re : Regex) (w : List Char),
    re.mustContain ks = true → Lang re w → ∃ c ∈ w, inClass ks c = true := by
  intro re
  induction re with
  | empty => intro w h; simp [Regex.mustContain] at h
  | bol => intro w h; simp [Regex.mustContain] at h
  | eol => intro w h; simp [Regex.mustContain] at h
  | cls rs =>
    intro w h hL
    obtain ⟨c, rfl, hc⟩ := hL
    exact ⟨c, List.mem_singleton_self c, inClass_of_subClass rs ks h c hc⟩
  | seq a b iha ihb =>
    intro w h hL
    obtain ⟨u, v, rfl, hu, hv⟩ := hL
    simp only [Regex.mustContain, Bool.or_eq_true] at h
    rcases h with h | h
    · obtain ⟨c, hc, hk⟩ := iha u h hu
      exact ⟨c, List.mem_append_left _ hc, hk⟩
    · obtain ⟨c, hc, hk⟩ := ihb v h hv
      exact ⟨c, List.mem_append_right _ hc, hk⟩
  | alt a b iha ihb =>
    intro w h hL
    simp only [Regex.mustContain, Bool.and_eq_true] at h
    rcases hL with hL | hL
    · exact iha w h.1 hL
    · exact ihb w h.2 hL
  | star a _ => intro w h; simp [Regex.mustContain] at h
  | cap i a iha => intro w h hL; exact iha w h hL

theorem Lang_str : ∀ (l w : List Char), Lang (Regex.str l) w → w = l := by
  intro l
  induction l with
  | nil => intro w h; exact h
  | cons c cs ih =>
    intro w h
    obtain ⟨u, v, rfl, ⟨x, rfl, hx⟩, hv⟩ := h
    rw [(inClass_single c x).1 hx, ih v hv]
    rfl

/-- A registry has a `.`, a `:` or an uppercase letter, or is `localhost`. -/
theorem registry_needs (g : List Char) (h : Lang registryS g) :
    (∃ c ∈ g, inClass [('.', '.'), (':', ':'), ('A', 'Z')] c = true) ∨
      g = "localhost".data := by
  rcases h with h | h | h | h
  · exact Or.inl (Lang_mustContain _ hostDomainS g (by decide) h)
  · exact Or.inl (Lang_mustContain _ hostPortS g (by decide) h)
  · exact Or.inl (Lang_mustContain _ hostUpperS g (by decide) h)
  · obtain ⟨u, v, rfl, hu, hv⟩ := h
    have hu' := Lang_str _ u hu
    rcases hv with hv | hv
    · obtain ⟨c, hc, hk⟩ := Lang_mustContain [('.', '.'), (':', ':'), ('A', 'Z')] _ v
        (by decide) hv
      exact Or.inl ⟨c, List.mem_append_right _ hc, hk⟩
    · have hv' : v = [] := hv
      right
      rw [hu', hv', List.append_nil]

theorem firstSegment_append (g x : List Char) (hg : '/' ∉ g) :
    firstSegment (g ++ '/' :: x) = g := by
  induction g with
  | nil => simp [firstSegment, List.takeWhile]
  | cons a g ih =>
    have ha : a ≠ '/' := fun h => hg (by rw [h]; exact List.mem_cons_self _ _)
    have hg' : '/' ∉ g := fun h => hg (List.mem_cons_of_mem _ h)
    have := ih hg'
    have hb : (a != '/') = true := bne_iff_ne.2 ha
    simp only [firstSegment] at this ⊢
    rw [List.cons_append, List.takeWhile_cons, if_pos hb, this]

/-- The first segment of a repository is a registry only when it has a `.` or is
`localhost`. -/
theorem no_registry_reading (r : List Char) (hr : Lang repoS r)
    (h : '/' ∉ r ∨ ('.' ∉ firstSegment r ∧ firstSegment r ≠ "localhost".data)) :
    ∀ q : Parse, q.Valid → q.registry.isSome = true → q.render ≠ r := by
  intro q hq hreg hs
  rcases q with ⟨g, qr, qt, qd⟩
  cases g with
  | none => simp at hreg
  | some g =>
    simp only [Parse.render, regPart, List.append_assoc, List.singleton_append] at hs
    have hgL : Lang registryS g := hq.1
    have hslash : '/' ∉ g := by
      intro hm
      exact absurd (registry_chars g hgL '/' hm) (by decide)
    rcases h with h | ⟨hdot, hloc⟩
    · apply h
      rw [← hs]
      simp
    · have hseg : firstSegment r = g := by rw [← hs]; exact firstSegment_append g _ hslash
      rw [hseg] at hdot hloc
      rcases registry_needs g hgL with ⟨c, hc, hk⟩ | hl
      · have hcr : inClass repoChars c = true :=
          repo_chars r hr c (by rw [← hs]; exact List.mem_append_left _ hc)
        have hk : inClass ([('.', '.')] ++ [(':', ':'), ('A', 'Z')]) c = true := hk
        rw [inClass_append, Bool.or_eq_true] at hk
        rcases hk with hk | hk
        · rw [(inClass_single '.' c).1 hk] at hc
          exact hdot hc
        · have := not_inClass_of_disjoint repoChars [(':', ':'), ('A', 'Z')] (by decide) c hcr
          rw [this] at hk
          exact absurd hk (by decide)
      · exact hloc hl

/-- C13: a repository path that has one segment, or whose first segment has no `.` and is
not `localhost`, is split into an empty registry, the whole path as the repository, an
empty tag and an empty digest. -/
theorem imageSplit_repository_only (r : String) (hr : Lang repoS r.data)
    (h : '/' ∉ r.data ∨
      ('.' ∉ firstSegment r.data ∧ firstSegment r.data ≠ "localhost".data)) :
    imageSplit r = ("", r, "", "", none) := by
  rw [imageSplit_no_registry r ⟨none, r.data, none, none⟩ ⟨trivial, hr, trivial, trivial⟩ rfl
    (by simp [Parse.render, Parse.tail, regPart, withSep])
    (no_registry_reading r.data hr h)]
  rfl

set_option maxRecDepth 100000 in
/-- C13, at the reference `library/alpine`. -/
theorem imageSplit_repository_only_witness :
    imageSplit "library/alpine" = ("", "library/alpine", "", "", none) :=
  imageSplit_repository_only "library/alpine"
    ((fullMatch_iff repoS repoS_plain _).1 (by decide)) (Or.inr (by decide))

/-! ## Hosts with an uppercase letter -/

set_option maxRecDepth 100000 in
/-- C12, as stated, fails: `A` and `a-B-c` are made of letters, digits and interior
hyphens, start and end with a letter or digit and have an uppercase letter, `bar` is a
repository, and `A/bar` and `a-B-c/bar` are rejected. -/
theorem hostUpper_counterexample :
    Lang hostPartS "A".data ∧ (∃ c ∈ "A".data, inClass [('A', 'Z')] c = true) ∧
    Lang hostPartS "a-B-c".data ∧ (∃ c ∈ "a-B-c".data, inClass [('A', 'Z')] c = true) ∧
    Lang repoS "bar".data ∧
    imageSplit ("A" ++ "/" ++ "bar") = ("", "", "", "", some "failed to parse ref A/bar") ∧
    imageSplit ("a-B-c" ++ "/" ++ "bar") =
      ("", "", "", "", some "failed to parse ref a-B-c/bar") :=
  ⟨(fullMatch_iff hostPartS (by decide) _).1 (by decide), ⟨'A', by decide, by decide⟩,
    (fullMatch_iff hostPartS (by decide) _).1 (by decide), ⟨'B', by decide, by decide⟩,
    (fullMatch_iff repoS repoS_plain _).1 (by decide), by decide, by decide⟩

/-- C12, amended: for every host that is a word of `hostUpperS` and every repository, the
reference `host/repository` is split into that host as the registry and that repository,
with an empty tag and an empty digest. -/
theorem imageSplit_hostUpper (H r : String) (hH : Lang hostUpperS H.data)
    (hr : Lang repoS r.data) : imageSplit (H ++ "/" ++ r) = (H, r, "", "", none) := by
  rw [imageSplit_registry _ ⟨some H.data, r.data, none, none⟩
    ⟨Or.inr (Or.inr (Or.inl hH)), hr, trivial, trivial⟩ rfl
    (by simp [String.data_append, Parse.render, Parse.tail, regPart, withSep])]
  rfl

set_option maxRecDepth 100000 in
/-- C12, amended, at the host `Foo`. -/
theorem imageSplit_hostUpper_witness :
    imageSplit ("Foo" ++ "/" ++ "bar") = ("Foo", "bar", "", "", none) :=
  imageSplit_hostUpper "Foo" "bar" ((fullMatch_iff hostUpperS (by decide) _).1 (by decide))
    ((fullMatch_iff repoS repoS_plain _).1 (by decide))


/-! ## The address of the container -/

/-- C15: `Address` returns `http://host:port` and no error when both lookups succeed; when
the lookup of the port mapped to `5000` fails it returns an empty address and that error
and does not look up the host; when the lookup of the host fails it returns an empty
address and that error; an error never comes with an address. -/
theorem Address_lookups (c : RegistryContainer) :
    (∀ p h, c.Container.MappedPort "5000" = (p, none) → c.Container.Host = (h, none) →
      (Address c).url = "http://" ++ h ++ ":" ++ p.Port ∧ (Address c).err = none) ∧
    (∀ p e, c.Container.MappedPort "5000" = (p, some e) →
      (Address c).url = "" ∧ (Address c).err = some e ∧
        (Address c).lookups = [Lookup.MappedPort "5000"] ∧
        Lookup.Host ∉ (Address c).lookups) ∧
    (∀ p h e, c.Container.MappedPort "5000" = (p, none) → c.Container.Host = (h, some e) →
      (Address c).url = "" ∧ (Address c).err = some e) ∧
    ((Address c).err ≠ none → (Address c).url = "") := by
  refine ⟨?_, ?_, ?_, ?_⟩
  · intro p h hp hh
    simp [Address, hp, hh]
  · intro p e hp
    simp [Address, hp]
  · intro p h e hp hh
    simp [Address, hp, hh]
  · unfold Address
    rcases c.Container.MappedPort "5000" with ⟨p, e1⟩
    rcases c.Container.Host with ⟨h, e2⟩
    cases e1 <;> cases e2 <;> simp

/-- C15, at a container whose port lookup fails. -/
theorem Address_lookups_witness :
    (Address ⟨⟨fun _ => (⟨""⟩, some "port not found"), ("localhost", none)⟩, ""⟩).url = "" ∧
    (Address ⟨⟨fun _ => (⟨""⟩, some "port not found"), ("localhost", none)⟩, ""⟩).err =
      some "port not found" ∧
    (Address ⟨⟨fun _ => (⟨""⟩, some "port not found"), ("localhost", none)⟩, ""⟩).lookups =
      [Lookup.MappedPort "5000"] ∧
    Lookup.Host ∉
      (Address ⟨⟨fun _ => (⟨""⟩, some "port not found"), ("localhost", none)⟩, ""⟩).lookups :=
  (Address_lookups ⟨⟨fun _ => (⟨""⟩, some "port not found"), ("localhost", none)⟩, ""⟩).2.1
    ⟨""⟩ "port not found" rfl

theorem TrimPrefix_append (pre x : String) : TrimPrefix (pre ++ x) pre = x := by
  have h : pre.data.isPrefixOf (pre ++ x).data = true := by
    rw [List.isPrefixOf_iff_prefix, String.data_append]
    exact List.prefix_append _ _
  rw [TrimPrefix, if_pos h]
  apply String.ext
  simp [String.data_append]

theorem Address_ok (c : RegistryContainer) (h p : String)
    (hhost : c.Container.Host = (h, none))
    (hport : c.Container.MappedPort "5000" = (⟨p⟩, none)) :
    (Address c).url = "http://" ++ h ++ ":" ++ p ∧ (Address c).err = none := by
  simp [Address, hhost, hport]

/-- The container `RunContainer` returns without error has the address without the scheme
as its name. -/
theorem RunContainer_name {ρ : Type}
    (GenericContainer : GenericContainerRequest ρ → Except String Container) (zero : ρ)
    (opts : List (CustomizeRequestOption ρ)) (c : RegistryContainer)
    (hrun : RunContainer GenericContainer zero opts = (some c, none)) :
    c.RegistryName = TrimPrefix (Address c).url "http://" ∧ (Address c).err = none := by
  unfold RunContainer at hrun
  rcases hA : applyOpts opts (registryRequest zero) with ⟨req, err⟩
  rw [hA] at hrun
  cases err with
  | some e => simp at hrun
  | none =>
    simp only [ne_eq, not_true_eq_false, if_false] at hrun
    cases hG : GenericContainer req with
    | error e =>
      rw [hG] at hrun
      simp at hrun
    | ok container =>
      rw [hG] at hrun
      simp only at hrun
      rcases hAd : Address { Container := container, RegistryName := "" } with ⟨address, err, l⟩
      rw [hAd] at hrun
      cases err with
      | some e => simp at hrun
      | none =>
        simp only [ne_eq, not_true_eq_false, if_false, Prod.mk.injEq, Option.some.injEq,
          and_true] at hrun
        subst hrun
        have : Address { Container := container, RegistryName := TrimPrefix address "http://" } =
            Address { Container := container, RegistryName := "" } := rfl
        rw [this, hAd]
        exact ⟨rfl, rfl⟩

set_option maxRecDepth 100000 in
/-- C16: when `RunContainer` succeeds and the lookups of the container return the host `h`
and the port `p`, the registry name of the container is `h:p`, and `http://` followed by
it is the address `Address` returns; when `h` is a host name and `p` a decimal port, the
registry name followed by `/busybox:latest` is split into the registry name, the
repository `busybox` and the tag `latest`. -/
theorem RegistryName_address {ρ : Type}
    (GenericContainer : GenericContainerRequest ρ → Except String Container) (zero : ρ)
    (opts : List (CustomizeRequestOption ρ)) (c : RegistryContainer) (h p : String)
    (hrun : RunContainer GenericContainer zero opts = (some c, none))
    (hhost : c.Container.Host = (h, none))
    (hport : c.Container.MappedPort "5000" = (⟨p⟩, none)) :
    c.RegistryName = h ++ ":" ++ p ∧
    "http://" ++ c.RegistryName = (Address c).url ∧ (Address c).err = none ∧
    (Lang hostNameS h.data → Lang portS p.data →
      imageSplit (c.RegistryName ++ "/busybox:latest") =
        (c.RegistryName, "busybox", "latest", "", none)) := by
  obtain ⟨hname, herr⟩ := RunContainer_name GenericContainer zero opts c hrun
  obtain ⟨hurl, _⟩ := Address_ok c h p hhost hport
  have hassoc : "http://" ++ h ++ ":" ++ p = "http://" ++ (h ++ ":" ++ p) := by
    apply String.ext
    simp [String.data_append]
  have hn : c.RegistryName = h ++ ":" ++ p := by
    rw [hname, hurl, hassoc, TrimPrefix_append]
  refine ⟨hn, by rw [hn, hurl, hassoc], herr, ?_⟩
  intro hh hp
  have hg := Lang_registry_host_port h.data p.data hh hp
  have hmk : String.mk (h.data ++ ':' :: p.data) = h ++ ":" ++ p := by
    apply String.ext
    simp [String.data_append]
  have hrepo : Lang repoS "busybox".data :=
    (fullMatch_iff repoS repoS_plain "busybox".data).1 (by decide)
  have htag : Lang tagS "latest".data :=
    (fullMatch_iff tagS tagS_plain "latest".data).1 (by decide)
  rw [hn, imageSplit_registry _
    ⟨some (h.data ++ ':' :: p.data), "busybox".data, some "latest".data, none⟩
    ⟨hg, hrepo, htag, trivial⟩ rfl
    (by simp [String.data_append, Parse.render, Parse.tail, regPart, withSep])]
  simp only [Parse.result, optStr_some, optStr_none, hmk]

set_option maxRecDepth 100000 in
/-- C16, at a container on `localhost` with the mapped port `32768`, started with the
option `WithData`. -/
theorem RegistryName_address_witness :
    ("localhost:32768" : String) = "localhost" ++ ":" ++ "32768" ∧
    "http://" ++ "localhost:32768" =
      (Address ⟨⟨fun _ => (⟨"32768"⟩, none), ("localhost", none)⟩, "localhost:32768"⟩).url ∧
    imageSplit ("localhost:32768" ++ "/busybox:latest") =
      ("localhost:32768", "busybox", "latest", "", none) :=
  have h := RegistryName_address
    (fun _ => Except.ok ⟨fun _ => (⟨"32768"⟩, none), ("localhost", none)⟩) ()
    [WithData "testdata/registry"]
    ⟨⟨fun _ => (⟨"32768"⟩, none), ("localhost", none)⟩, "localhost:32768"⟩
    "localhost" "32768" rfl rfl rfl
  ⟨h.1, h.2.1, h.2.2.2 ((fullMatch_iff hostNameS (by decide) _).1 (by decide))
    ((fullMatch_iff portS (by decide) _).1 (by decide))⟩

/-! ## The option `WithData` -/

/-- C17: `WithData p` returns no error and leaves the request as it was but for `Files`,
which gets one more entry at its end, with the host path `p` and the container path
`/home/appuser/registry`; that path is the argument `RunContainer` gives after `--dir`,
and `RunContainer` with this option alone asks for that command and that one file. -/
theorem WithData_appends {ρ : Type} (p : String) (req : GenericContainerRequest ρ) :
    (WithData p req).2 = none ∧
    (WithData p req).1.Files =
      req.Files ++ [{ HostFilePath := p, ContainerFilePath := "/home/appuser/registry" }] ∧
    (WithData p req).1.Image = req.Image ∧
    (WithData p req).1.ExposedPorts = req.ExposedPorts ∧
    (WithData p req).1.Cmd = req.Cmd ∧
    (WithData p req).1.WaitingFor = req.WaitingFor ∧
    (WithData p req).1.Other = req.Other ∧
    (WithData p req).1.Started = req.Started ∧
    (∀ zero : ρ, (registryRequest zero).Cmd =
      ["serve", "--store-type", "mem", "--api-delete", "--dir", "/home/appuser/registry"]) ∧
    (∀ zero : ρ, (applyOpts [WithData p] (registryRequest zero)).2 = none ∧
      (applyOpts [WithData p] (registryRequest zero)).1.Cmd =
        ["serve", "--store-type", "mem", "--api-delete", "--dir", "/home/appuser/registry"] ∧
      (applyOpts [WithData p] (registryRequest zero)).1.Files =
        [{ HostFilePath := p, ContainerFilePath := "/home/appuser/registry" }]) :=
  ⟨rfl, rfl, rfl, rfl, rfl, rfl, rfl, rfl, fun _ => rfl, fun _ => ⟨rfl, rfl, rfl⟩⟩


end Olareg
